import Mathlib

/-!
# Forward-pass inference network (`network.cpp`)

A shallow embedding of `src/network.cpp`: the matrix loader `csv2mat`, the three layers
`Linear`, `ReLU`, `Softmax`, and the driver `main`, followed by the properties of the
specification that were checked against them.

Modelling conventions.

* `double` is an arbitrary carrier `α`; the numerical statements take `α := ℝ` and the
  exponential `Real.exp`.  The layers receive the exponential as an argument, so that every
  definition stays executable on carriers such as `ℤ` or `ℚ`.
* An Eigen matrix is its two dimensions and a coefficient function.  Coefficient access
  `m(i, j)` and the size requirements of `*` and `+` are Eigen's `eigen_assert` checks: when
  one fails the operation produces no value (`Err.eigenAssert`).
* An input stream is the list of tokens still to be read, each with the byte at which it
  begins (the byte that `peek()` sees), with the two state bits the code observes
  (`failbit`, `eofbit`).
* Where the overflow of `exp` in double precision matters, doubles are the values `Fl`: the
  finite numbers, the two infinities and NaN.
* Variables that C++ leaves uninitialised (`int rows, cols;`, `double x;`, the storage of a
  freshly constructed matrix) hold indeterminate values; they are supplied from outside
  (`Indet`, and the buffer argument of `ReLU.forward`), and properties are stated for all
  of them.
-/

namespace Network

variable {α : Type}

/-! ## Failures -/

/-- Ways in which a call can end without a value. -/
inductive Err where
  /-- The exception `std::runtime_error("failed to open file!")` thrown by `csv2mat`. -/
  | runtimeError
  /-- An Eigen size or index check (`eigen_assert`) does not hold. -/
  | eigenAssert
  /-- The loop model used up its iteration budget. -/
  | outOfFuel
  /-- The failure kind `DimensionMismatch` that the specification names.  No statement of
  `network.cpp` raises it; it is listed so that properties about it can be stated. -/
  | dimensionMismatch
  deriving DecidableEq, Repr

/-! ## Input streams -/

/-- One token of a stream, described by what the two formatted extractions used by the
program make of it: `asInt` is the value `ifs >> (int&)` reads from it (`none` when that
extraction rejects the token), `asDouble` the value `ifs >> (double&)` reads from it.
`first` is the code of the byte at which the token begins in the stream, that is the byte
that `peek()` sees when this token is the next one: the first byte of the separator in
front of the token (`32` for a blank, `10` for a newline), or of the token itself when
nothing separates it from what precedes.  A token that begins at a NUL byte (code `0`) is
rejected by both extractions (`nul`): a NUL byte is neither whitespace, which `>>` skips,
nor the beginning of a number. -/
structure Token (α : Type) where
  asInt : Option Int
  asDouble : Option α
  first : Nat
  nul : first = 0 → asInt = none ∧ asDouble = none

/-- State of a `std::ifstream`: the `failbit` (set as well when the file could not be
opened), the `eofbit`, the tokens not yet extracted, and whether whitespace follows the
last token. -/
structure IStream (α : Type) where
  failbit : Bool
  eofbit : Bool
  toks : List (Token α)
  trailing : Bool

/-- The call `ifs.good()`: no state bit is set. -/
def IStream.good (s : IStream α) : Bool := !s.failbit && !s.eofbit

/-- The call `ifs.eof()`. -/
def IStream.eof (s : IStream α) : Bool := s.eofbit

/-- The call `ifs.peek()`: the code of the next byte, or `-1` (`EOF`).  On a stream that is
not good it sets `failbit` and answers `EOF`; in front of a token it answers the byte at
which the token begins; after the last token it answers a whitespace byte (whose code, one
of `9` to `13` or `32`, is written `32`) when whitespace follows, and otherwise sets `eofbit`
and answers `EOF`. -/
def IStream.peek (s : IStream α) : Int × IStream α :=
  if !s.good then (-1, { s with failbit := true })
  else
    match s.toks with
    | t :: _ => ((t.first : Int), s)
    | [] => if s.trailing then (32, s) else (-1, { s with eofbit := true })

/-- Whether the stream is good and its next byte is NUL (code `0`). -/
def IStream.atNul (s : IStream α) : Bool :=
  s.good && match s.toks with
    | t :: _ => t.first == 0
    | [] => false

/-- The extraction `ifs >> n` for `int n`.  The first component is the value stored into
`n`, `none` when `n` is left untouched.  A stream that is not good only gets `failbit`;
when no token is left, skipping whitespace reaches the end (`eofbit` and `failbit`); a
rejected token stores `0` and sets `failbit`; an accepted token is consumed, and `eofbit` is
set when the token ran up to the end of the content. -/
def IStream.extractInt (s : IStream α) : Option Int × IStream α :=
  if !s.good then (none, { s with failbit := true })
  else
    match s.toks with
    | [] => (none, { s with failbit := true, eofbit := true })
    | t :: rest =>
      match t.asInt with
      | some n => (some n, { s with toks := rest, eofbit := rest.isEmpty && !s.trailing })
      | none => (some 0, { s with failbit := true })

/-- The extraction `ifs >> x` for `double x`, with the same cases as `extractInt`. -/
def IStream.extractDouble [Zero α] (s : IStream α) : Option α × IStream α :=
  if !s.good then (none, { s with failbit := true })
  else
    match s.toks with
    | [] => (none, { s with failbit := true, eofbit := true })
    | t :: rest =>
      match t.asDouble with
      | some v => (some v, { s with toks := rest, eofbit := rest.isEmpty && !s.trailing })
      | none => (some 0, { s with failbit := true })

/-! ## Matrices -/

/-- A dense matrix (`Eigen::MatrixXd`): row count, column count and coefficients. -/
structure Mat (α : Type) where
  rows : Nat
  cols : Nat
  coeff : Nat → Nat → α

/-- Reading `m(i, j)`: Eigen checks the index range. -/
def Mat.get (m : Mat α) (i j : Nat) : Except Err α :=
  if i < m.rows ∧ j < m.cols then .ok (m.coeff i j) else .error .eigenAssert

/-- The assignment `m(i, j) = v`: Eigen checks the index range. -/
def Mat.set (m : Mat α) (i j : Nat) (v : α) : Except Err (Mat α) :=
  if i < m.rows ∧ j < m.cols then
    .ok { m with coeff := fun a b => if a = i ∧ b = j then v else m.coeff a b }
  else .error .eigenAssert

/-- The product `A * B`: defined when `A.cols = B.rows`. -/
def Mat.mul [Semiring α] (A B : Mat α) : Except Err (Mat α) :=
  if A.cols = B.rows then
    .ok ⟨A.rows, B.cols, fun i j => ∑ k in Finset.range A.cols, A.coeff i k * B.coeff k j⟩
  else .error .eigenAssert

/-- The sum `A + B`: defined when both operands have the same shape. -/
def Mat.add [Add α] (A B : Mat α) : Except Err (Mat α) :=
  if A.rows = B.rows ∧ A.cols = B.cols then
    .ok ⟨A.rows, A.cols, fun i j => A.coeff i j + B.coeff i j⟩
  else .error .eigenAssert

/-- The entries of a matrix in row-major order: what `operator<<` prints, in this order,
for the format `IOFormat(3, DontAlignCols, ", ", ", ")`, which puts the same separator
between coefficients and between rows. -/
def Mat.entries (m : Mat α) : List α :=
  (List.range m.rows).flatMap fun i => (List.range m.cols).map fun j => m.coeff i j

/-! ## The loader `csv2mat` -/

/-- Indeterminate values met by one call of `csv2mat`: the initial contents of the
uninitialised `int rows, cols;`, of `double x;` in the `n`-th loop iteration, and of the
storage of `Eigen::MatrixXd mat(rows, cols)`. -/
structure Indet (α : Type) where
  rows0 : Int
  cols0 : Int
  x0 : Nat → α
  mat0 : Nat → Nat → α

/-- The `while` loop of `csv2mat`, returning the matrix (or the failure) and the state in
which the stream is left.  `n` counts the iterations done so far, `row` and `col` are the
loop variables.  The loop is left when `ifs.peek() != ifs.eof()` is false or by the `break`
at `row == rows`.  In the test `peek` is evaluated before `eof`, whose `bool` is compared as
`0` or `1`; since `peek` answers `-1` whenever it sets a state bit, the other order of
evaluation gives the test the same value. -/
def readLoop [Zero α] (g : Indet α) (rows cols : Int) :
    Nat → Nat → Nat → Nat → Mat α → IStream α → Except Err (Mat α) × IStream α
  | 0, _, _, _, _, ifs => (.error .outOfFuel, ifs)
  | fuel + 1, n, row, col, mat, ifs =>
    let p := ifs.peek
    if p.1 = (if p.2.eof then 1 else 0) then (.ok mat, p.2)
    else
      let e := p.2.extractDouble
      let x := e.1.getD (g.x0 n)
      match mat.set row col x with
      | .error err => (.error err, e.2)
      | .ok mat1 =>
        let col1 := col + 1
        let row2 := if (col1 : Int) = cols then row + 1 else row
        let col2 := if (col1 : Int) = cols then 0 else col1
        if (row2 : Int) = rows then (.ok mat1, e.2)
        else readLoop g rows cols fuel (n + 1) row2 col2 mat1 e.2

/-- The function `csv2mat`: the matrix it returns (or the way it fails) together with the
state in which it leaves the stream, which it receives by reference.  The loop gets
`rows * cols + 1` iterations, more than it can use. -/
def csv2mat [Zero α] (g : Indet α) (ifs : IStream α) : Except Err (Mat α) × IStream α :=
  if !ifs.good then (.error .runtimeError, ifs)
  else
    let r := ifs.extractInt
    let rows := r.1.getD g.rows0
    let c := r.2.extractInt
    let cols := c.1.getD g.cols0
    if rows < 0 ∨ cols < 0 then (.error .eigenAssert, c.2)
    else
      let mat : Mat α := ⟨rows.toNat, cols.toNat, g.mat0⟩
      readLoop g rows cols (rows.toNat * cols.toNat + 1) 0 0 0 mat c.2

/-! ## Layers -/

/-- The loop `for (int i = 0; i < n; i++)` acting on a state; it stops at the first
failure of its body. -/
def forLoop {σ : Type} (n : Nat) (body : Nat → σ → Except Err σ) (init : σ) : Except Err σ :=
  (List.range n).foldlM (fun s i => body i s) init

/-- The class `Linear`: the weight matrix `A` and the bias `b`. -/
structure Linear (α : Type) where
  A : Mat α
  b : Mat α

/-- The constructor `Linear(A_filename, b_filename)`: both streams are opened (`files` gives
the stream that `std::ifstream` yields for a name), then `A` and `b` are loaded in this
order; `gA` and `gb` are the indeterminate values of the two `csv2mat` calls. -/
def Linear.construct [Zero α] (gA gb : Indet α) (files : String → IStream α)
    (A_filename b_filename : String) : Except Err (Linear α) := do
  let A_file := files A_filename
  let b_file := files b_filename
  let A ← (csv2mat gA A_file).1
  let b ← (csv2mat gb b_file).1
  pure ⟨A, b⟩

/-- The method `Linear::forward`: `y = A * x + b`. -/
def Linear.forward [Semiring α] (l : Linear α) (x : Mat α) : Except Err (Mat α) := do
  let p ← l.A.mul x
  let y ← p.add l.b
  pure y

/-- The method `ReLU::forward`.  `R_y0` is the indeterminate initial content of the
fixed-size `Eigen::Matrix<double, 128, 1> R_y`; the loop runs over the rows of `x`, and
`R_y`, a 128-by-1 matrix, is what is returned. -/
def ReLU.forward [Zero α] [LinearOrder α] (R_y0 : Nat → α) (x : Mat α) :
    Except Err (Mat α) :=
  let R_y : Mat α := ⟨128, 1, fun i _ => R_y0 i⟩
  forLoop x.rows (fun i R_y => do
    let xi ← x.get i 0
    if xi ≤ 0 then R_y.set i 0 0
    else do
      let xi ← x.get i 0
      R_y.set i 0 xi) R_y

/-- The method `Softmax::forward`, with `exp` the exponential of the carrier: `soft` starts
as a copy of `x`, the first loop accumulates `sum_s`, the second overwrites column 0. -/
def Softmax.forward [Zero α] [Add α] [Div α] (exp : α → α) (x : Mat α) :
    Except Err (Mat α) := do
  let soft := x
  let sum_s ← forLoop x.rows (fun i sum_s => do
    let denom := exp (← x.get i 0)
    pure (sum_s + denom)) 0
  forLoop x.rows (fun i soft => do
    let xi ← x.get i 0
    soft.set i 0 (exp xi / sum_s)) soft

/-! ## The driver `main` -/

/-- The four layer calls that `main` makes for one sample `X`:
`s.forward(l2.forward(r.forward(l1.forward(X))))`. -/
def forwardPass [Semiring α] [LinearOrder α] [Div α] (exp : α → α) (R_y0 : Nat → α)
    (l1 l2 : Linear α) (X : Mat α) : Except Err (Mat α) := do
  let ans ← l1.forward X
  let R_ans ← ReLU.forward R_y0 ans
  let l_ans ← l2.forward R_ans
  let probabilities ← Softmax.forward exp l_ans
  pure probabilities

/-- Everything outside the program that a run depends on: the stream obtained for each file
name, the indeterminate values of the `n`-th call of `csv2mat` (calls 0 to 3 load `A1`,
`b1`, `A2`, `b2`; call `4 + k` loads sample `k`), and the initial content of the buffer of
`ReLU::forward` while sample `k` is processed. -/
structure World (α : Type) where
  files : String → IStream α
  indet : Nat → Indet α
  R_y0 : Nat → Nat → α

/-- What a run leaves behind: whether `output.csv` has been created, the lines written to
it (each line is the list of values printed on it), and how the run ended.  Messages on the
console are not recorded. -/
structure Run (α : Type) where
  created : Bool
  lines : List (List α)
  exit : Except Err Unit

/-- The list `data_filenames` of `main`: the four default names, replaced by the arguments
when there is at least one (`argc >= 2`). -/
def dataFilenames (argv : List String) : List String :=
  if argv.length ≥ 2 then argv.drop 1
  else ["data1.csv", "data2.csv", "data3.csv", "data4.csv"]

/-- The `for` loop of `main` over the data files: `k` is the index of the next sample and
`out` the lines written so far.  A failure while loading or evaluating a sample ends the
run before anything is written for it. -/
def sampleLoop [Semiring α] [LinearOrder α] [Div α] (exp : α → α) (w : World α)
    (l1 l2 : Linear α) : Nat → List String → List (List α) → List (List α) × Except Err Unit
  | _, [], out => (out, .ok ())
  | k, data_filename :: rest, out =>
    match (do
      let ifs := w.files data_filename
      let X ← (csv2mat (w.indet (4 + k)) ifs).1
      forwardPass exp (w.R_y0 k) l1 l2 X) with
    | .error e => (out, .error e)
    | .ok probabilities => sampleLoop exp w l1 l2 (k + 1) rest (out ++ [probabilities.entries])

/-- The function `main`, with `argv` the command line including the program name. -/
def main [Semiring α] [LinearOrder α] [Div α] (exp : α → α) (w : World α)
    (argv : List String) : Run α :=
  -- `std::ofstream ofs("output.csv")` comes first
  let data_filenames := dataFilenames argv
  match Linear.construct (w.indet 0) (w.indet 1) w.files "A1.csv" "b1.csv" with
  | .error e => ⟨true, [], .error e⟩
  | .ok l1 =>
    match Linear.construct (w.indet 2) (w.indet 3) w.files "A2.csv" "b2.csv" with
    | .error e => ⟨true, [], .error e⟩
    | .ok l2 =>
      let r := sampleLoop exp w l1 l2 0 data_filenames []
      ⟨true, r.1, r.2⟩

/-! ## Inputs of the examples of the specification -/

/-- The two-row column `[a, b]` (`rows = 2`, `cols = 1`). -/
def col2 (a b : α) : Mat α := ⟨2, 1, fun i _ => if i = 0 then a else b⟩

/-- The layer with the 2-by-2 identity as weights and the bias `[0, 0]`. -/
def identityLayer [Zero α] [One α] : Linear α :=
  ⟨⟨2, 2, fun i j => if i = j then 1 else 0⟩, ⟨2, 1, fun _ _ => 0⟩⟩

/-- The token written for the number `n` after a blank: both extractions accept it. -/
def numToken [NatCast α] (n : Nat) : Token α :=
  ⟨some n, some (n : α), 32, fun h => absurd h (by decide)⟩

/-- The token that begins at a NUL byte. -/
def nulToken : Token α := ⟨none, none, 0, fun _ => ⟨rfl, rfl⟩⟩

/-- The stream opened on a file that holds the numbers `ns` separated by blanks and ends
with a newline. -/
def fileOf [NatCast α] (ns : List Nat) : IStream α := ⟨false, false, ns.map numToken, true⟩

/-- The stream obtained for a file that does not exist: opening fails and sets `failbit`. -/
def noFile : IStream α := ⟨true, false, [], false⟩

/-- A directory with the weights of a network of shape 1 → 128 → 1 (`A1` is 128-by-1, `b1`
is 128-by-1, `A2` is 1-by-128, `b2` is 1-by-1), a sample `good.csv` of shape 1-by-1 and a
sample `bad.csv` of shape 2-by-1; every indeterminate value is `0`. -/
def exampleWorld [NatCast α] [Zero α] : World α where
  files := fun name =>
    if name = "A1.csv" then fileOf (128 :: 1 :: List.replicate 128 1)
    else if name = "b1.csv" then fileOf (128 :: 1 :: List.replicate 128 0)
    else if name = "A2.csv" then fileOf (1 :: 128 :: List.replicate 128 1)
    else if name = "b2.csv" then fileOf [1, 1, 0]
    else if name = "good.csv" then fileOf [1, 1, 5]
    else if name = "bad.csv" then fileOf [2, 1, 5, 6]
    else noFile
  indet := fun _ => ⟨0, 0, fun _ => 0, fun _ _ => 0⟩
  R_y0 := fun _ _ => 0

/-- The names of the four weight and bias files, in the order in which `main` loads them. -/
def weightFile : Nat → String
  | 0 => "A1.csv"
  | 1 => "b1.csv"
  | 2 => "A2.csv"
  | _ => "b2.csv"

/-- A directory without any file; every indeterminate value is `0`. -/
def emptyWorld [Zero α] : World α where
  files := fun _ => noFile
  indet := fun _ => ⟨0, 0, fun _ => 0, fun _ _ => 0⟩
  R_y0 := fun _ _ => 0

/-! ## The stabilised softmax of the specification -/

/-- The matrix `x` with `c` subtracted from every entry. -/
def Mat.shift [Sub α] (x : Mat α) (c : α) : Mat α :=
  ⟨x.rows, x.cols, fun i j => x.coeff i j - c⟩

/-- The largest entry `max(x)` of column 0 of `x`. -/
def Mat.colMax [LinearOrder α] (x : Mat α) : α :=
  (List.range x.rows).foldl (fun m i => max m (x.coeff i 0)) (x.coeff 0 0)

/-- The stabilised form that the specification describes for a reimplementation, in its
words: entry `i` is `exp(x[i] - max(x))` divided by the sum over all rows `k` of
`exp(x[k] - max(x))`.  It is not part of `network.cpp`; it is compared with
`Softmax.forward`. -/
def stableSoftmaxSpec [Field α] [LinearOrder α] (exp : α → α) (x : Mat α) : Mat α :=
  ⟨x.rows, 1, fun i _ =>
    exp (x.coeff i 0 - x.colMax) / ∑ k in Finset.range x.rows, exp (x.coeff k 0 - x.colMax)⟩

/-! ## The network as a formula -/

/-- Entry `k` of `ReLU(A1 * x + b1)` for a column `x`:
`max((Σ_q A1[k][q] * x[q]) + b1[k], 0)`. -/
def hiddenUnit [Semiring α] [LinearOrder α] (l1 : Linear α) (x : Mat α) (k : Nat) : α :=
  max ((∑ q in Finset.range l1.A.cols, l1.A.coeff k q * x.coeff q 0) + l1.b.coeff k 0) 0

/-- Entry `i` of `A2 * ReLU(A1 * x + b1) + b2` for a column `x`. -/
def logit [Semiring α] [LinearOrder α] (l1 l2 : Linear α) (x : Mat α) (i : Nat) : α :=
  (∑ k in Finset.range l2.A.cols, l2.A.coeff i k * hiddenUnit l1 x k) + l2.b.coeff i 0

/-- A directory with the weights of a network of shape 1 → 128 → 2 (`A1` is 128-by-1 with
all entries `1`, `b1` is 128-by-1 with all entries `0`, `A2` is 2-by-128 with a row of ones
and a row of zeros, `b2` is `[0, 0]`) and the two samples `zero.csv` (`[0]`) and `one.csv`
(`[1]`); every indeterminate value is `0`. -/
def twoClassWorld [NatCast α] [Zero α] : World α where
  files := fun name =>
    if name = "A1.csv" then fileOf (128 :: 1 :: List.replicate 128 1)
    else if name = "b1.csv" then fileOf (128 :: 1 :: List.replicate 128 0)
    else if name = "A2.csv" then
      fileOf (2 :: 128 :: (List.replicate 128 1 ++ List.replicate 128 0))
    else if name = "b2.csv" then fileOf [2, 1, 0, 0]
    else if name = "zero.csv" then fileOf [1, 1, 0]
    else if name = "one.csv" then fileOf [1, 1, 1]
    else noFile
  indet := fun _ => ⟨0, 0, fun _ => 0, fun _ _ => 0⟩
  R_y0 := fun _ _ => 0

/-! ## Networks of hidden width 128 used as examples -/

/-- A first layer of 128 rows for one input: only hidden unit 0 sees the input (weight `1`),
all biases are `0`. -/
def unitLayer1 [Zero α] [One α] : Linear α :=
  ⟨⟨128, 1, fun i _ => if i = 0 then 1 else 0⟩, ⟨128, 1, fun _ _ => 0⟩⟩

/-- A first layer of 128 rows for one input with all weights and all biases `1`. -/
def onesLayer1 [One α] : Linear α :=
  ⟨⟨128, 1, fun _ _ => 1⟩, ⟨128, 1, fun _ _ => 1⟩⟩

/-- A second layer with two outputs: output 0 is the sum of the 128 hidden units, output 1
ignores them; the biases are `0`. -/
def sumLayer2 [Zero α] [One α] : Linear α :=
  ⟨⟨2, 128, fun i _ => if i = 0 then 1 else 0⟩, ⟨2, 1, fun _ _ => 0⟩⟩

/-! ## Overflow in double precision -/

/-- A value of type `double` as far as overflow is concerned: a finite number of the
carrier `β`, `+inf`, `-inf` or a NaN.  The rounding of finite results and the sign of zero
are not represented. -/
inductive Fl (β : Type) where
  | fin (b : β)
  | pinf
  | ninf
  | nan

/-- Addition of doubles on these values (IEEE 754): a NaN operand or `inf + -inf` gives a
NaN, an infinity absorbs every finite number. -/
def Fl.add {β : Type} [Add β] : Fl β → Fl β → Fl β
  | .fin a, .fin b => .fin (a + b)
  | .nan, _ => .nan
  | _, .nan => .nan
  | .pinf, .ninf => .nan
  | .ninf, .pinf => .nan
  | .pinf, _ => .pinf
  | _, .pinf => .pinf
  | .ninf, _ => .ninf
  | _, .ninf => .ninf

/-- Division of doubles on these values (IEEE 754): a NaN operand, `0 / 0` or
`inf / inf` gives a NaN, a finite number divided by an infinity gives `0`, a non-zero
number divided by `0` gives an infinity. -/
def Fl.div {β : Type} [Zero β] [Div β] [LinearOrder β] : Fl β → Fl β → Fl β
  | .nan, _ => .nan
  | _, .nan => .nan
  | .fin a, .fin b =>
    if b = 0 then (if a = 0 then .nan else if 0 < a then .pinf else .ninf)
    else .fin (a / b)
  | .fin _, .pinf => .fin 0
  | .fin _, .ninf => .fin 0
  | .pinf, .fin b => if 0 ≤ b then .pinf else .ninf
  | .ninf, .fin b => if 0 ≤ b then .ninf else .pinf
  | .pinf, .pinf => .nan
  | .pinf, .ninf => .nan
  | .ninf, .pinf => .nan
  | .ninf, .ninf => .nan

instance {β : Type} [Zero β] : Zero (Fl β) := ⟨.fin 0⟩

instance {β : Type} [Add β] : Add (Fl β) := ⟨Fl.add⟩

instance {β : Type} [Zero β] [Div β] [LinearOrder β] : Div (Fl β) := ⟨Fl.div⟩

/-- The function `exp` of `<cmath>` on these values, from the exponential `e` of the
carrier: the result overflows to `+inf` for every argument above `top` (the logarithm of
the largest double, about `709.78`). -/
def Fl.exp {β : Type} [Zero β] [LinearOrder β] (e : β → β) (top : β) : Fl β → Fl β
  | .fin b => if top < b then .pinf else .fin (e b)
  | .pinf => .pinf
  | .ninf => .fin 0
  | .nan => .nan

/-! ## Facts about the loader -/

/-- A cell of a matrix with `c` columns is determined by its row-major index. -/
theorem cell_of_index {c i j row col : Nat} (hj : j < c) (hcol : col < c)
    (h : i * c + j = row * c + col) : i = row ∧ j = col := by
  have hc : 0 < c := by omega
  have hi : (i * c + j) / c = i := by
    rw [Nat.add_comm, Nat.add_mul_div_right _ _ hc, Nat.div_eq_of_lt hj, Nat.zero_add]
  have hrow : (row * c + col) / c = row := by
    rw [Nat.add_comm, Nat.add_mul_div_right _ _ hc, Nat.div_eq_of_lt hcol, Nat.zero_add]
  have e1 : i = row := by rw [← hi, h, hrow]
  subst e1
  exact ⟨rfl, by omega⟩

/-- The cell after `(row, col)` in row-major order lies inside the matrix unless
`(row, col)` is the last cell, and its row-major index is one more. -/
theorem next_cell {r c row col : Nat} (hrow : row < r) (hcol : col < c)
    (hnot : ¬ (col + 1 = c ∧ row + 1 = r)) :
    (if col + 1 = c then row + 1 else row) < r ∧ (if col + 1 = c then 0 else col + 1) < c ∧
      (if col + 1 = c then row + 1 else row) * c + (if col + 1 = c then 0 else col + 1)
        = row * c + col + 1 := by
  by_cases hlast : col + 1 = c
  · have hend : row + 1 ≠ r := fun h => hnot ⟨hlast, h⟩
    simp only [hlast, if_true]
    refine ⟨by omega, by omega, ?_⟩
    rw [Nat.add_mul]; omega
  · simp only [hlast, if_false]
    exact ⟨hrow, by omega, by omega⟩

/-- The row-major index of a cell of an `r`-by-`c` matrix is below `r * c`, and it is
`r * c - 1` exactly for the last cell. -/
theorem index_bound {r c row col : Nat} (hrow : row < r) (hcol : col < c) :
    row * c + col < r * c ∧ ((col + 1 = c ∧ row + 1 = r) ↔ row * c + col + 1 = r * c) := by
  have hle : row * c + c ≤ r * c := by
    calc row * c + c = (row + 1) * c := by ring
      _ ≤ r * c := Nat.mul_le_mul_right c hrow
  refine ⟨by omega, ?_, ?_⟩
  · rintro ⟨h1, h2⟩
    rw [← h2, Nat.add_mul]; omega
  · intro h
    have hcol1 : col + 1 = c := by omega
    refine ⟨hcol1, ?_⟩
    have h2 : (row + 1) * c = r * c := by rw [Nat.add_mul]; omega
    exact Nat.eq_of_mul_eq_mul_right (by omega) h2

/-- The assignment `m(i, j) = v` passes Eigen's check exactly when the indices are in
range; a failure is always the index check. -/
theorem set_error (m : Mat α) (i j : Nat) (v : α) (e : Err) (h : m.set i j v = .error e) :
    e = .eigenAssert ∧ ¬ (i < m.rows ∧ j < m.cols) := by
  unfold Mat.set at h
  split at h
  · cases h
  · rename_i hn
    injection h with h
    exact ⟨h.symm, hn⟩

/-- The test `ifs.peek() != ifs.eof()` of the loop is false exactly when the stream is good
and its next byte is NUL: `peek` then answers `0`, which is what `eof()` converts to.  In
every other state `peek` answers `EOF` (`-1`) or a code that differs from `eof()`. -/
theorem peek_test (s : IStream α) :
    s.peek.1 = (if s.peek.2.eof then 1 else 0) ↔ s.atNul = true := by
  obtain ⟨fb, eb, toks, tr⟩ := s
  cases fb <;> cases eb <;> cases toks <;> cases tr <;>
    simp [IStream.peek, IStream.atNul, IStream.good, IStream.eof]

/-- A stream in which no token begins at a NUL byte is not in front of a NUL byte. -/
theorem atNul_of_clean (s : IStream α) (h : ∀ t ∈ s.toks, t.first ≠ 0) :
    s.atNul = false := by
  obtain ⟨fb, eb, toks, tr⟩ := s
  cases toks with
  | nil => simp [IStream.atNul]
  | cons t rest =>
    have := h t (by simp)
    simp [IStream.atNul, this]

/-- The tokens left after one loop test and one extraction are tokens of the stream. -/
theorem toks_after_extract [Zero α] (s : IStream α) :
    ∀ t ∈ (s.peek.2.extractDouble).2.toks, t ∈ s.toks := by
  obtain ⟨fb, eb, toks, tr⟩ := s
  intro t ht
  cases toks with
  | nil =>
    cases fb <;> cases eb <;> cases tr <;>
      simp [IStream.peek, IStream.good, IStream.extractDouble] at ht
  | cons t0 rest =>
    cases hd : t0.asDouble <;> cases fb <;> cases eb <;>
      simp [IStream.peek, IStream.good, IStream.extractDouble, hd] at ht ⊢ <;>
      first
        | exact Or.inr ht
        | exact ht

/-- In front of a NUL byte the loop of `csv2mat` is left at once by its test, with the
matrix as it is. -/
theorem readLoop_exit [Zero α] (g : Indet α) (rows cols : Int) (fuel n row col : Nat)
    (mat : Mat α) (ifs : IStream α) (h : ifs.atNul = true) :
    readLoop g rows cols (fuel + 1) n row col mat ifs = (.ok mat, ifs) := by
  have hp : ifs.peek.2 = ifs := by
    obtain ⟨fb, eb, toks, tr⟩ := ifs
    cases fb <;> cases eb <;> cases toks <;>
      simp [IStream.peek, IStream.atNul, IStream.good] at h ⊢
  have htest := (peek_test ifs).mpr h
  rw [readLoop]
  dsimp only
  rw [if_pos htest, hp]

/-- The loop of `csv2mat` never ends with the exception of `csv2mat`. -/
theorem readLoop_ne_runtimeError [Zero α] (g : Indet α) (rows cols : Int) :
    ∀ (fuel n row col : Nat) (mat : Mat α) (ifs : IStream α),
      (readLoop g rows cols fuel n row col mat ifs).1 ≠ .error .runtimeError := by
  intro fuel
  induction fuel with
  | zero => intro n row col mat ifs; simp [readLoop]
  | succ fuel ih =>
    intro n row col mat ifs
    by_cases hnul : ifs.atNul = true
    · rw [readLoop_exit g rows cols fuel n row col mat ifs hnul]
      simp
    · have htest : ¬ (ifs.peek.1 = (if ifs.peek.2.eof then 1 else 0)) :=
        fun h => hnul ((peek_test ifs).mp h)
      simp only [readLoop, if_neg htest]
      cases hset : mat.set row col
          ((ifs.peek.2.extractDouble).1.getD (g.x0 n)) with
      | error e =>
        obtain ⟨he, -⟩ := set_error _ _ _ _ _ hset
        simp [he]
      | ok mat1 =>
        simp only
        split_ifs
        all_goals first
          | exact ih _ _ _ _ _
          | simp

/-- C12: on a stream that is not good at call time `csv2mat` throws its
`std::runtime_error` (the IOError-kind failure), returns no matrix and leaves the stream
as it found it, no token consumed; on a stream that is good at call time it does not end
with this failure. -/
theorem csv2mat_not_good [Zero α] (g : Indet α) (ifs : IStream α) :
    (ifs.good = false → csv2mat g ifs = (.error .runtimeError, ifs)) ∧
    (ifs.good = true → (csv2mat g ifs).1 ≠ .error .runtimeError) := by
  constructor
  · intro h
    simp [csv2mat, h]
  · intro h
    simp only [csv2mat, h, Bool.not_true, Bool.false_eq_true, if_false]
    split
    · simp
    · exact readLoop_ne_runtimeError _ _ _ _ _ _ _ _ _

/-- C12 at the stream of a missing file and at the stream `1 1 5`, over the integers. -/
theorem csv2mat_not_good_witness :
    csv2mat (⟨0, 0, fun _ => 0, fun _ _ => 0⟩ : Indet Int) noFile
      = (.error .runtimeError, noFile) ∧
    (csv2mat (⟨0, 0, fun _ => 0, fun _ _ => 0⟩ : Indet Int) (fileOf [1, 1, 5])).1
      ≠ .error .runtimeError :=
  ⟨(csv2mat_not_good _ noFile).1 rfl, (csv2mat_not_good _ (fileOf [1, 1, 5])).2 rfl⟩

/-- One iteration of the loop of `csv2mat` from a cell inside an `r`-by-`c` matrix, when
the next byte of the stream is not NUL: the value extracted (or the indeterminate `x`) is
written to the cell, then the loop is left by the `break` when the cell was the last one,
and goes on with the next cell otherwise. -/
theorem readLoop_step [Zero α] (g : Indet α) (r c fuel n row col : Nat) (mat : Mat α)
    (ifs : IStream α) (hmr : mat.rows = r) (hmc : mat.cols = c) (hrow : row < r)
    (hcol : col < c) (hnul : ifs.atNul = false) :
    readLoop g r c (fuel + 1) n row col mat ifs =
      if col + 1 = c ∧ row + 1 = r then
        (.ok { mat with coeff := fun a b =>
            if a = row ∧ b = col then (ifs.peek.2.extractDouble).1.getD (g.x0 n)
            else mat.coeff a b },
          (ifs.peek.2.extractDouble).2)
      else
        readLoop g r c fuel (n + 1) (if col + 1 = c then row + 1 else row)
          (if col + 1 = c then 0 else col + 1)
          { mat with coeff := fun a b =>
            if a = row ∧ b = col then (ifs.peek.2.extractDouble).1.getD (g.x0 n)
            else mat.coeff a b }
          (ifs.peek.2.extractDouble).2 := by
  have hset : ∀ v, mat.set row col v = .ok
      { mat with coeff := fun a b => if a = row ∧ b = col then v else mat.coeff a b } := by
    intro v; simp [Mat.set, hmr, hmc, hrow, hcol]
  have htest : ¬ (ifs.peek.1 = (if ifs.peek.2.eof then 1 else 0)) := by
    intro h
    have := (peek_test ifs).mp h
    rw [hnul] at this
    exact Bool.false_ne_true this
  simp only [readLoop, if_neg htest, hset]
  by_cases hlast : col + 1 = c
  · have hc1 : (col : Int) + 1 = (c : Int) := by omega
    by_cases hend : row + 1 = r
    · have hr1 : (row : Int) + 1 = (r : Int) := by omega
      simp [hlast, hend, hc1, hr1]
    · have hr1 : ¬ (row : Int) + 1 = (r : Int) := by omega
      simp [hlast, hend, hc1, hr1]
  · have hc1 : ¬ (col : Int) + 1 = (c : Int) := by omega
    have hr1 : ¬ (row : Int) = (r : Int) := by omega
    simp [hlast, hc1, hr1]

/-- Whatever the stream holds, the loop of `csv2mat` started at a cell inside the matrix
ends within `r * c - n` iterations, by its test or by the `break`; it returns a matrix of
the declared shape and keeps the cells written before. -/
theorem readLoop_total [Zero α] (g : Indet α) (r c : Nat) :
    ∀ (fuel n row col : Nat) (mat : Mat α) (ifs : IStream α),
      mat.rows = r → mat.cols = c → row < r → col < c → n = row * c + col →
      r * c - n ≤ fuel →
      ∃ m s, readLoop g r c fuel n row col mat ifs = (.ok m, s) ∧ m.rows = r ∧ m.cols = c ∧
        ∀ i j, j < c → i * c + j < n → m.coeff i j = mat.coeff i j := by
  intro fuel
  induction fuel with
  | zero =>
    intro n row col mat ifs _ _ hrow hcol hn hfuel
    have := (index_bound hrow hcol).1
    omega
  | succ fuel ih =>
    intro n row col mat ifs hmr hmc hrow hcol hn hfuel
    obtain ⟨hidx, hlastiff⟩ := index_bound hrow hcol
    by_cases hnul : ifs.atNul = true
    · rw [readLoop_exit g r c fuel n row col mat ifs hnul]
      exact ⟨mat, ifs, rfl, hmr, hmc, fun _ _ _ _ => rfl⟩
    · rw [readLoop_step g r c fuel n row col mat ifs hmr hmc hrow hcol
        (by simpa using hnul)]
      by_cases hlast : col + 1 = c ∧ row + 1 = r
      · rw [if_pos hlast]
        refine ⟨_, _, rfl, hmr, hmc, ?_⟩
        intro i j hj hlt
        have hne : ¬ (i = row ∧ j = col) := by
          rintro ⟨rfl, rfl⟩; omega
        simp [hne]
      · rw [if_neg hlast]
        obtain ⟨h1, h2, h3⟩ := next_cell hrow hcol hlast
        have hnl : row * c + col + 1 ≠ r * c := fun h => hlast (hlastiff.mpr h)
        obtain ⟨m, s, hrun, hr, hc, hkeep⟩ := ih (n + 1) _ _
          { mat with coeff := fun a b =>
              if a = row ∧ b = col then (ifs.peek.2.extractDouble).1.getD (g.x0 n)
              else mat.coeff a b }
          (ifs.peek.2.extractDouble).2 hmr hmc h1 h2 (by omega) (by omega)
        refine ⟨m, s, hrun, hr, hc, ?_⟩
        intro i j hj hlt
        rw [hkeep i j hj (by omega)]
        have hne : ¬ (i = row ∧ j = col) := by
          rintro ⟨rfl, rfl⟩; omega
        simp [hne]

/-- On a stream in which no token begins at a NUL byte, the loop of `csv2mat` started at
the cell of row-major index `n` runs out of a budget of `fuel` iterations exactly when
`fuel < r * c - n`: it makes `r * c - n` iterations. -/
theorem readLoop_outOfFuel_iff [Zero α] (g : Indet α) (r c : Nat) :
    ∀ (fuel n row col : Nat) (mat : Mat α) (ifs : IStream α),
      mat.rows = r → mat.cols = c → row < r → col < c → n = row * c + col →
      (∀ t ∈ ifs.toks, t.first ≠ 0) →
      ((readLoop g r c fuel n row col mat ifs).1 = .error .outOfFuel ↔ fuel < r * c - n) := by
  intro fuel
  induction fuel with
  | zero =>
    intro n row col mat ifs _ _ hrow hcol hn _
    have := (index_bound hrow hcol).1
    simp only [readLoop, true_iff]
    omega
  | succ fuel ih =>
    intro n row col mat ifs hmr hmc hrow hcol hn hclean
    obtain ⟨hidx, hlastiff⟩ := index_bound hrow hcol
    rw [readLoop_step g r c fuel n row col mat ifs hmr hmc hrow hcol
      (atNul_of_clean ifs hclean)]
    by_cases hlast : col + 1 = c ∧ row + 1 = r
    · rw [if_pos hlast]
      have := hlastiff.mp hlast
      simp only [reduceCtorEq, false_iff]
      omega
    · rw [if_neg hlast]
      obtain ⟨h1, h2, h3⟩ := next_cell hrow hcol hlast
      have hnl : row * c + col + 1 ≠ r * c := fun h => hlast (hlastiff.mpr h)
      have hrec := ih (n + 1) _ _
        { mat with coeff := fun a b =>
            if a = row ∧ b = col then (ifs.peek.2.extractDouble).1.getD (g.x0 n)
            else mat.coeff a b }
        (ifs.peek.2.extractDouble).2 hmr hmc h1 h2 (by omega)
        (fun t ht => hclean t (toks_after_extract ifs t ht))
      rw [hrec]
      omega

/-- With `rows == 0` or `cols == 0` the first write of the loop of `csv2mat`, when the loop
is entered, is outside the matrix and fails Eigen's index check. -/
theorem readLoop_empty [Zero α] (g : Indet α) (rows cols : Int) (fuel n : Nat) (mat : Mat α)
    (ifs : IStream α) (h : mat.rows = 0 ∨ mat.cols = 0) (hnul : ifs.atNul = false) :
    (readLoop g rows cols (fuel + 1) n 0 0 mat ifs).1 = .error .eigenAssert := by
  have hset : ∀ v, mat.set 0 0 v = .error .eigenAssert := by
    intro v
    unfold Mat.set
    rw [if_neg]
    rintro ⟨h1, h2⟩
    omega
  have htest : ¬ (ifs.peek.1 = (if ifs.peek.2.eof then 1 else 0)) := by
    intro h
    have := (peek_test ifs).mp h
    rw [hnul] at this
    exact Bool.false_ne_true this
  simp only [readLoop, if_neg htest, hset]

/-- After a header `r c` with `r, c ≥ 0` the function `csv2mat` runs its loop from the cell
`(0, 0)` of a fresh `r`-by-`c` matrix on the rest of the stream. -/
theorem csv2mat_header [Zero α] (g : Indet α) (r c : Nat) (tr tc : Token α)
    (rest : List (Token α)) (t : Bool)
    (htr : tr.asInt = some (r : Int)) (htc : tc.asInt = some (c : Int)) :
    csv2mat g ⟨false, false, tr :: tc :: rest, t⟩ =
      readLoop g r c (r * c + 1) 0 0 0 ⟨r, c, g.mat0⟩
        ⟨false, rest.isEmpty && !t, rest, t⟩ := by
  have hr0 : ¬ ((r : Int) < 0) := by omega
  have hc0 : ¬ ((c : Int) < 0) := by omega
  simp [csv2mat, IStream.good, IStream.extractInt, htr, htc, hr0, hc0]

/-- The loop of `csv2mat` on a stream that starts with the values `v n, v (n + 1), …` for
the next cells, none of them beginning at a NUL byte, and goes on in any way: it ends with
a matrix of the declared shape, in which the cells written before are kept and the next
cells hold these values. -/
theorem readLoop_prefix_values [Zero α] (g : Indet α) (r c : Nat) (v : Nat → α)
    (rest : List (Token α)) (t : Bool) :
    ∀ (vals : List (Token α)) (fuel n row col : Nat) (mat : Mat α) (eb : Bool),
      mat.rows = r → mat.cols = c → row < r → col < c → n = row * c + col →
      r * c - n ≤ fuel → (vals ≠ [] → eb = false) → n + vals.length ≤ r * c →
      (∀ k tk, vals[k]? = some tk → tk.asDouble = some (v (n + k))) →
      (∀ tk ∈ vals, tk.first ≠ 0) →
      ∃ m s, readLoop g r c fuel n row col mat ⟨false, eb, vals ++ rest, t⟩ = (.ok m, s) ∧
        m.rows = r ∧ m.cols = c ∧
        ∀ i j, j < c → (i * c + j < n → m.coeff i j = mat.coeff i j) ∧
          (n ≤ i * c + j → i * c + j < n + vals.length → m.coeff i j = v (i * c + j)) := by
  intro vals
  induction vals with
  | nil =>
    intro fuel n row col mat eb hmr hmc hrow hcol hn hfuel _ _ _ _
    obtain ⟨m, s, hrun, h1, h2, hkeep⟩ :=
      readLoop_total g r c fuel n row col mat ⟨false, eb, [] ++ rest, t⟩ hmr hmc hrow hcol
        hn hfuel
    refine ⟨m, s, hrun, h1, h2, fun i j hj => ⟨hkeep i j hj, ?_⟩⟩
    intro h1 h2
    simp at h2
    omega
  | cons tk vals ih =>
    intro fuel n row col mat eb hmr hmc hrow hcol hn hfuel heb hlen hv hsep
    obtain ⟨hidx, hlastiff⟩ := index_bound hrow hcol
    have hebf : eb = false := heb (by simp)
    subst hebf
    have htk : tk.asDouble = some (v n) := by
      have := hv 0 tk (by simp)
      simpa using this
    have hfirst : tk.first ≠ 0 := hsep tk (by simp)
    cases fuel with
    | zero => omega
    | succ fuel =>
      have hnul : (⟨false, false, tk :: vals ++ rest, t⟩ : IStream α).atNul = false := by
        simp [IStream.atNul, hfirst]
      have hext : ((⟨false, false, tk :: vals ++ rest, t⟩ : IStream α).peek.2.extractDouble)
          = (some (v n), ⟨false, (vals ++ rest).isEmpty && !t, vals ++ rest, t⟩) := by
        simp [IStream.peek, IStream.good, IStream.extractDouble, htk]
      rw [readLoop_step g r c fuel n row col mat _ hmr hmc hrow hcol hnul, hext]
      simp only [Option.getD_some, List.length_cons] at hlen ⊢
      by_cases hlast : col + 1 = c ∧ row + 1 = r
      · rw [if_pos hlast]
        have hn1 := hlastiff.mp hlast
        refine ⟨_, _, rfl, hmr, hmc, ?_⟩
        intro i j hj
        constructor
        · intro hlt
          have hne : ¬ (i = row ∧ j = col) := by
            rintro ⟨rfl, rfl⟩; omega
          simp [hne]
        · intro hge hlt
          have hidx2 : i * c + j = row * c + col := by omega
          obtain ⟨rfl, rfl⟩ := cell_of_index hj hcol hidx2
          simp [hn]
      · rw [if_neg hlast]
        obtain ⟨h1, h2, h3⟩ := next_cell hrow hcol hlast
        have hnl : row * c + col + 1 ≠ r * c := fun h => hlast (hlastiff.mpr h)
        obtain ⟨m, s, hrun, hr, hc, hprop⟩ := ih fuel (n + 1) _ _
          { mat with coeff := fun a b => if a = row ∧ b = col then v n else mat.coeff a b }
          ((vals ++ rest).isEmpty && !t) hmr hmc h1 h2 (by omega) (by omega)
          (by intro hne; cases vals with
            | nil => exact absurd rfl hne
            | cons _ _ => rfl)
          (by omega)
          (fun k t0 hk => by
            have := hv (k + 1) t0 (by simpa using hk)
            rw [this]; congr 2; omega)
          (fun t0 h0 => hsep t0 (List.mem_cons_of_mem _ h0))
        refine ⟨m, s, hrun, hr, hc, ?_⟩
        intro i j hj
        obtain ⟨ha, hb⟩ := hprop i j hj
        constructor
        · intro hlt
          rw [ha (by omega)]
          have hne : ¬ (i = row ∧ j = col) := by
            rintro ⟨rfl, rfl⟩; omega
          simp [hne]
        · intro hge hlt
          by_cases heq : i * c + j = n
          · rw [ha (by omega)]
            obtain ⟨rfl, rfl⟩ := cell_of_index hj hcol (heq.trans hn)
            simp [heq]
          · exact hb (by omega) (by omega)

/-- Two streams that start with the same values for all the cells still to be written, none
of them beginning at a NUL byte, give the loop of `csv2mat` the same matrix, and the loop
stops reading right after these values. -/
theorem readLoop_ignores_rest [Zero α] (g : Indet α) (r c : Nat)
    (rest1 rest2 : List (Token α)) (t1 t2 : Bool) :
    ∀ (vals : List (Token α)) (fuel n row col : Nat) (mat : Mat α),
      mat.rows = r → mat.cols = c → row < r → col < c → n = row * c + col →
      r * c - n ≤ fuel → n + vals.length = r * c →
      (∀ tk, tk ∈ vals → ∃ x, tk.asDouble = some x) →
      (∀ tk ∈ vals, tk.first ≠ 0) →
      (readLoop g r c fuel n row col mat ⟨false, false, vals ++ rest1, t1⟩).1 =
        (readLoop g r c fuel n row col mat ⟨false, false, vals ++ rest2, t2⟩).1 ∧
      (readLoop g r c fuel n row col mat ⟨false, false, vals ++ rest1, t1⟩).2.toks
        = rest1 := by
  intro vals
  induction vals with
  | nil =>
    intro fuel n row col mat _ _ hrow hcol hn _ hlen _ _
    have := (index_bound hrow hcol).1
    simp at hlen
    omega
  | cons tk vals ih =>
    intro fuel n row col mat hmr hmc hrow hcol hn hfuel hlen hv hsep
    obtain ⟨hidx, hlastiff⟩ := index_bound hrow hcol
    obtain ⟨x, htk⟩ := hv tk (by simp)
    have hfirst : tk.first ≠ 0 := hsep tk (by simp)
    simp only [List.length_cons] at hlen
    cases fuel with
    | zero => omega
    | succ fuel =>
      have hnul : ∀ (rest : List (Token α)) (t : Bool),
          (⟨false, false, tk :: vals ++ rest, t⟩ : IStream α).atNul = false := by
        intro rest t
        simp [IStream.atNul, hfirst]
      have hext : ∀ (rest : List (Token α)) (t : Bool),
          ((⟨false, false, tk :: vals ++ rest, t⟩ : IStream α).peek.2.extractDouble)
            = (some x, ⟨false, (vals ++ rest).isEmpty && !t, vals ++ rest, t⟩) := by
        intro rest t
        simp [IStream.peek, IStream.good, IStream.extractDouble, htk]
      rw [readLoop_step g r c fuel n row col mat _ hmr hmc hrow hcol (hnul rest1 t1),
        readLoop_step g r c fuel n row col mat _ hmr hmc hrow hcol (hnul rest2 t2),
        hext, hext]
      by_cases hlast : col + 1 = c ∧ row + 1 = r
      · rw [if_pos hlast, if_pos hlast]
        have hn1 := hlastiff.mp hlast
        have hnil : vals = [] := List.eq_nil_of_length_eq_zero (by omega)
        subst hnil
        exact ⟨rfl, rfl⟩
      · rw [if_neg hlast, if_neg hlast]
        obtain ⟨h1, h2, h3⟩ := next_cell hrow hcol hlast
        have hnl : row * c + col + 1 ≠ r * c := fun h => hlast (hlastiff.mpr h)
        have hemp : ∀ rest : List (Token α), (vals ++ rest).isEmpty = false := by
          intro rest
          cases vals with
          | nil => simp at hlen; omega
          | cons _ _ => rfl
        simp only [hemp, Bool.false_and]
        exact ih fuel (n + 1) _ _ _ hmr hmc h1 h2 (by omega) (by omega) (by omega)
          (fun t0 h0 => hv t0 (List.mem_cons_of_mem _ h0))
          (fun t0 h0 => hsep t0 (List.mem_cons_of_mem _ h0))

/-- The values of a list of tokens that `ifs >> x` all accept, by position. -/
theorem token_values [Zero α] (ts : List (Token α)) (vs : List α)
    (hts : ts.map Token.asDouble = vs.map some) :
    ∀ k tk, ts[k]? = some tk → tk.asDouble = some (vs.getD (0 + k) 0) := by
  intro k tk hk
  have h1 : (ts.map Token.asDouble)[k]? = some tk.asDouble := by
    rw [List.getElem?_map, hk]; rfl
  rw [hts, List.getElem?_map] at h1
  cases hvk : vs[k]? with
  | none => rw [hvk] at h1; simp at h1
  | some a =>
    rw [hvk] at h1
    simp only [Option.map_some', Option.some.injEq] at h1
    rw [← h1, Nat.zero_add, List.getD_eq_getElem?_getD, hvk]
    rfl

/-- Tokens that `ifs >> x` all accept do not begin at a NUL byte. -/
theorem values_clean (ts : List (Token α)) (vs : List α)
    (hts : ts.map Token.asDouble = vs.map some) : ∀ t ∈ ts, t.first ≠ 0 := by
  intro t ht h0
  have hmem : t.asDouble ∈ ts.map Token.asDouble := List.mem_map_of_mem _ ht
  rw [hts, (t.nul h0).2] at hmem
  simp at hmem

/-- The loader on a good stream holding the header `r c` and exactly the `r * c` values
`vs`: an `r`-by-`c` matrix filled in row-major order. -/
theorem csv2mat_loads [Zero α] (g : Indet α) (r c : Nat) (tr tc : Token α)
    (ts : List (Token α)) (vs : List α) (trailing : Bool)
    (hr : 1 ≤ r) (hc : 1 ≤ c)
    (htr : tr.asInt = some (r : Int)) (htc : tc.asInt = some (c : Int))
    (hts : ts.map Token.asDouble = vs.map some) (hlen : vs.length = r * c) :
    ∃ m s, csv2mat g ⟨false, false, tr :: tc :: ts, trailing⟩ = (.ok m, s) ∧
      m.rows = r ∧ m.cols = c ∧
      ∀ row col, row < r → col < c → vs[row * c + col]? = some (m.coeff row col) := by
  have hsep := values_clean ts vs hts
  have hlts : ts.length = r * c := by
    have := congrArg List.length hts
    simpa [hlen] using this
  have hpos : 0 < r * c := Nat.mul_pos hr hc
  obtain ⟨m, s, hrun, h1, h2, h5⟩ :=
    readLoop_prefix_values g r c (fun k => vs.getD k 0) [] trailing ts (r * c + 1) 0 0 0
      ⟨r, c, g.mat0⟩ (ts.isEmpty && !trailing) rfl rfl (by omega) (by omega) (by simp)
      (by omega)
      (by intro hne; cases ts with
        | nil => exact absurd rfl hne
        | cons _ _ => rfl)
      (by omega) (token_values ts vs hts) hsep
  rw [List.append_nil] at hrun
  refine ⟨m, s, ?_, h1, h2, ?_⟩
  · rw [csv2mat_header g r c tr tc ts trailing htr htc]
    exact hrun
  · intro row col hrow hcol
    have hidx : row * c + col < r * c := (index_bound hrow hcol).1
    rw [(h5 row col hcol).2 (Nat.zero_le _) (by omega)]
    rw [List.getD_eq_getElem?_getD, List.getElem?_eq_getElem (by omega)]
    rfl

/-- C1: on a good stream holding the header `r c` (`r ≥ 1`, `c ≥ 1`) followed by exactly the
`r * c` values `vs`, `csv2mat` returns an `r`-by-`c` matrix whose entry at `(row, col)` is
the value number `row * c + col` of the stream, for all `row < r` and `col < c`, whatever
the indeterminate initial contents of its local variables. -/
theorem csv2mat_row_major [Zero α] (g : Indet α) (r c : Nat) (tr tc : Token α)
    (ts : List (Token α)) (vs : List α) (trailing : Bool)
    (hr : 1 ≤ r) (hc : 1 ≤ c)
    (htr : tr.asInt = some (r : Int)) (htc : tc.asInt = some (c : Int))
    (hts : ts.map Token.asDouble = vs.map some) (hlen : vs.length = r * c) :
    ∃ m s, csv2mat g ⟨false, false, tr :: tc :: ts, trailing⟩ = (.ok m, s) ∧
      m.rows = r ∧ m.cols = c ∧
      ∀ row col, row < r → col < c → vs[row * c + col]? = some (m.coeff row col) :=
  csv2mat_loads g r c tr tc ts vs trailing hr hc htr htc hts hlen

/-- C1 at the stream `2 2 1 2 3 4` over the integers. -/
theorem csv2mat_row_major_witness :
    ∃ m s, csv2mat (⟨0, 0, fun _ => 0, fun _ _ => 0⟩ : Indet Int)
        ⟨false, false, [numToken 2, numToken 2, numToken 1, numToken 2, numToken 3,
          numToken 4], false⟩ = (.ok m, s) ∧
      m.rows = 2 ∧ m.cols = 2 ∧
      ∀ row col, row < 2 → col < 2 →
        ([1, 2, 3, 4] : List Int)[row * 2 + col]? = some (m.coeff row col) :=
  csv2mat_row_major _ 2 2 _ _ _ [1, 2, 3, 4] false (by decide) (by decide) rfl rfl rfl rfl

/-! ## Facts about the layers -/

/-- One more iteration of a `for` loop runs the body after the shorter loop. -/
theorem forLoop_succ {σ : Type} (n : Nat) (body : Nat → σ → Except Err σ) (init : σ) :
    forLoop (n + 1) body init = forLoop n body init >>= body n := by
  simp [forLoop, List.range_succ, List.foldlM_append]

/-- A `for` loop that has failed keeps its failure however many iterations follow. -/
theorem forLoop_error_mono {σ : Type} (body : Nat → σ → Except Err σ) (init : σ) (e : Err)
    (n : Nat) (h : forLoop n body init = .error e) :
    ∀ m, n ≤ m → forLoop m body init = .error e := by
  intro m hm
  induction m with
  | zero =>
    have : n = 0 := by omega
    subst this; exact h
  | succ m ih =>
    by_cases hn : n = m + 1
    · subst hn; exact h
    · rw [forLoop_succ, ih (by omega)]; rfl

/-- The loop of `ReLU::forward` over the first `n` rows, while they fit the buffer: rows
below `n` hold `max(x[i], 0)`, every other cell keeps its initial content. -/
theorem relu_loop [Zero α] [LinearOrder α] (R_y0 : Nat → α) (x : Mat α) (hc : 0 < x.cols) :
    ∀ n, n ≤ x.rows → n ≤ 128 →
      ∃ R : Mat α, forLoop n (fun i R_y => do
          let xi ← x.get i 0
          if xi ≤ 0 then R_y.set i 0 0
          else do
            let xi ← x.get i 0
            R_y.set i 0 xi) (⟨128, 1, fun i _ => R_y0 i⟩ : Mat α) = .ok R ∧
        R.rows = 128 ∧ R.cols = 1 ∧
        (∀ i, i < n → R.coeff i 0 = max (x.coeff i 0) 0) ∧
        (∀ i j, ¬ (i < n ∧ j = 0) → R.coeff i j = R_y0 i) := by
  intro n
  induction n with
  | zero =>
    intro _ _
    exact ⟨_, rfl, rfl, rfl, by intro i hi; omega, by intro i j _; rfl⟩
  | succ n ih =>
    intro hn h128
    obtain ⟨R, hR, hrows, hcols, hlow, hkeep⟩ := ih (by omega) (by omega)
    have hget : x.get n 0 = .ok (x.coeff n 0) := by
      simp [Mat.get, hc]; omega
    by_cases hle : x.coeff n 0 ≤ 0
    · refine ⟨{ R with coeff := fun a b => if a = n ∧ b = 0 then 0 else R.coeff a b },
        ?_, hrows, hcols, ?_, ?_⟩
      · rw [forLoop_succ, hR]
        have h1 : n < R.rows := by omega
        simp [bind, Except.bind, hget, hle, Mat.set, h1, hcols]
      · intro i hi
        by_cases hin : i = n
        · subst hin; simp [max_eq_right hle]
        · simp [hin]; exact hlow i (by omega)
      · intro i j hij
        have hne : ¬ (i = n ∧ j = 0) := by
          rintro ⟨rfl, rfl⟩; exact hij ⟨by omega, rfl⟩
        simp only [hne, if_false]
        exact hkeep i j (by rintro ⟨h1, h2⟩; exact hij ⟨by omega, h2⟩)
    · refine ⟨{ R with coeff := fun a b => if a = n ∧ b = 0 then x.coeff n 0 else R.coeff a b },
        ?_, hrows, hcols, ?_, ?_⟩
      · rw [forLoop_succ, hR]
        have h1 : n < R.rows := by omega
        simp [bind, Except.bind, hget, hle, Mat.set, h1, hcols]
      · intro i hi
        by_cases hin : i = n
        · subst hin; simp [max_eq_left (le_of_lt (not_le.mp hle))]
        · simp [hin]; exact hlow i (by omega)
      · intro i j hij
        have hne : ¬ (i = n ∧ j = 0) := by
          rintro ⟨rfl, rfl⟩; exact hij ⟨by omega, rfl⟩
        simp only [hne, if_false]
        exact hkeep i j (by rintro ⟨h1, h2⟩; exact hij ⟨by omega, h2⟩)

/-- On an input of at most 128 rows `ReLU::forward` returns its 128-by-1 buffer: the first
`x.rows` rows hold `max(x[i], 0)`, the others their initial content. -/
theorem relu_forward_small [Zero α] [LinearOrder α] (R_y0 : Nat → α) (x : Mat α)
    (hc : 0 < x.cols) (hr : x.rows ≤ 128) :
    ∃ R : Mat α, ReLU.forward R_y0 x = .ok R ∧ R.rows = 128 ∧ R.cols = 1 ∧
      (∀ i, i < x.rows → R.coeff i 0 = max (x.coeff i 0) 0) ∧
      (∀ i j, ¬ (i < x.rows ∧ j = 0) → R.coeff i j = R_y0 i) :=
  relu_loop R_y0 x hc x.rows (le_refl _) hr

/-- On an input of more than 128 rows `ReLU::forward` runs out of its buffer: the write
`R_y(128, 0)` fails the index check. -/
theorem relu_forward_large [Zero α] [LinearOrder α] (R_y0 : Nat → α) (x : Mat α)
    (hc : 0 < x.cols) (hr : 128 < x.rows) :
    ReLU.forward R_y0 x = .error .eigenAssert := by
  obtain ⟨R, hR, hrows, hcols, -, -⟩ := relu_loop R_y0 x hc 128 (by omega) (le_refl _)
  have hget : x.get 128 0 = .ok (x.coeff 128 0) := by
    simp [Mat.get, hc, hr]
  apply forLoop_error_mono _ _ _ 129 _ _ hr
  rw [forLoop_succ, hR]
  by_cases hle : x.coeff 128 0 ≤ 0 <;>
    simp [bind, Except.bind, hget, hle, Mat.set, hrows]

/-- The sum `A * x + b` computed by `Linear::forward` exists exactly when the three size
requirements of Eigen hold. -/
theorem linear_forward_eq [Semiring α] (l : Linear α) (x : Mat α)
    (h1 : l.A.cols = x.rows) (h2 : l.A.rows = l.b.rows) (h3 : x.cols = l.b.cols) :
    l.forward x = .ok ⟨l.A.rows, x.cols, fun i j =>
      (∑ k in Finset.range l.A.cols, l.A.coeff i k * x.coeff k j) + l.b.coeff i j⟩ := by
  simp [Linear.forward, Mat.mul, Mat.add, h1, h2, h3, bind, Except.bind, pure, Except.pure]

/-- The first loop of `Softmax::forward` over the first `n` rows leaves in `sum_s` the sum of
the exponentials of these rows. -/
theorem softmax_sum_loop [Field α] (exp : α → α) (x : Mat α) (hc : 0 < x.cols) :
    ∀ n, n ≤ x.rows →
      forLoop n (fun i sum_s => do
          let denom := exp (← x.get i 0)
          pure (sum_s + denom)) (0 : α)
        = .ok (∑ k in Finset.range n, exp (x.coeff k 0)) := by
  intro n
  induction n with
  | zero => intro _; rfl
  | succ n ih =>
    intro hn
    have hget : x.get n 0 = .ok (x.coeff n 0) := by
      simp [Mat.get, hc]; omega
    rw [forLoop_succ, ih (by omega)]
    simp [bind, Except.bind, hget, pure, Except.pure, Finset.sum_range_succ]

/-- The second loop of `Softmax::forward` over the first `n` rows: column 0 of these rows
holds `exp(x[i]) / sum_s`, every other cell is still the copy of `x`. -/
theorem softmax_div_loop [Field α] (exp : α → α) (x : Mat α) (sum_s : α) (hc : 0 < x.cols) :
    ∀ n, n ≤ x.rows →
      ∃ S : Mat α, forLoop n (fun i soft => do
          let xi ← x.get i 0
          soft.set i 0 (exp xi / sum_s)) x = .ok S ∧
        S.rows = x.rows ∧ S.cols = x.cols ∧
        (∀ i, i < n → S.coeff i 0 = exp (x.coeff i 0) / sum_s) ∧
        (∀ i j, ¬ (i < n ∧ j = 0) → S.coeff i j = x.coeff i j) := by
  intro n
  induction n with
  | zero =>
    intro _
    exact ⟨x, rfl, rfl, rfl, by intro i hi; omega, by intro i j _; rfl⟩
  | succ n ih =>
    intro hn
    obtain ⟨S, hS, hrows, hcols, hlow, hkeep⟩ := ih (by omega)
    have hget : x.get n 0 = .ok (x.coeff n 0) := by
      simp [Mat.get, hc]; omega
    refine ⟨{ S with coeff := fun a b =>
        if a = n ∧ b = 0 then exp (x.coeff n 0) / sum_s else S.coeff a b },
      ?_, hrows, hcols, ?_, ?_⟩
    · rw [forLoop_succ, hS]
      have h1 : n < S.rows := by omega
      have h2 : 0 < S.cols := by omega
      simp [bind, Except.bind, hget, Mat.set, h1, h2]
    · intro i hi
      by_cases hin : i = n
      · subst hin; simp
      · simp [hin]; exact hlow i (by omega)
    · intro i j hij
      have hne : ¬ (i = n ∧ j = 0) := by
        rintro ⟨rfl, rfl⟩; exact hij ⟨by omega, rfl⟩
      simp only [hne, if_false]
      exact hkeep i j (by rintro ⟨h1, h2⟩; exact hij ⟨by omega, h2⟩)

/-- The value of `Softmax::forward` on an input with at least one column: the shape of the
input, `exp(x[i]) / Σ exp(x[k])` in column 0, and the input itself in the other columns. -/
theorem softmax_forward_eq [Field α] (exp : α → α) (x : Mat α) (hc : 0 < x.cols) :
    ∃ y : Mat α, Softmax.forward exp x = .ok y ∧ y.rows = x.rows ∧ y.cols = x.cols ∧
      (∀ i, i < x.rows →
        y.coeff i 0 = exp (x.coeff i 0) / ∑ k in Finset.range x.rows, exp (x.coeff k 0)) ∧
      (∀ i j, j ≠ 0 → y.coeff i j = x.coeff i j) := by
  obtain ⟨S, hS, hrows, hcols, hlow, hkeep⟩ :=
    softmax_div_loop exp x (∑ k in Finset.range x.rows, exp (x.coeff k 0)) hc x.rows (le_refl _)
  refine ⟨S, ?_, hrows, hcols, hlow, fun i j hj => hkeep i j (fun h => hj h.2)⟩
  unfold Softmax.forward
  rw [softmax_sum_loop exp x hc x.rows (le_refl _)]
  exact hS

/-- The sum of the exponentials of a non-empty column is positive. -/
theorem exp_sum_pos (x : Mat ℝ) (hr : 0 < x.rows) :
    0 < ∑ k in Finset.range x.rows, Real.exp (x.coeff k 0) :=
  Finset.sum_pos (fun _ _ => Real.exp_pos _) ⟨0, Finset.mem_range.mpr hr⟩

/-! ## The layers against the specification -/

/-- C2, as stated, fails: with `A` and `b` 1-by-1 and `x` 1-by-2 both conditions
`A.cols == x.rows` and `A.rows == b.rows` hold, yet the sum `A * x + b` of a 1-by-2 and a
1-by-1 matrix does not pass Eigen's shape check and no value is returned. -/
theorem linear_forward_two_conditions_counterexample :
    (⟨1, 1, fun _ _ => 1⟩ : Mat ℝ).cols = (⟨1, 2, fun _ _ => 1⟩ : Mat ℝ).rows ∧
    (⟨1, 1, fun _ _ => 1⟩ : Mat ℝ).rows = (⟨1, 1, fun _ _ => 0⟩ : Mat ℝ).rows ∧
    Linear.forward (⟨⟨1, 1, fun _ _ => 1⟩, ⟨1, 1, fun _ _ => 0⟩⟩ : Linear ℝ)
      ⟨1, 2, fun _ _ => 1⟩ = .error .eigenAssert := by
  refine ⟨rfl, rfl, ?_⟩
  simp [Linear.forward, Mat.mul, Mat.add, bind, Except.bind]

/-- C2, amended: when `A.cols == x.rows`, `A.rows == b.rows` and `x.cols == b.cols`,
`Linear::forward` returns the `A.rows`-by-`x.cols` matrix whose entry `(i, j)` is
`(Σ_k A[i][k] * x[k][j]) + b[i][j]`. -/
theorem linear_forward_affine [Semiring α] (l : Linear α) (x : Mat α)
    (h1 : l.A.cols = x.rows) (h2 : l.A.rows = l.b.rows) (h3 : x.cols = l.b.cols) :
    ∃ y : Mat α, l.forward x = .ok y ∧ y.rows = l.A.rows ∧ y.cols = x.cols ∧
      ∀ i j, i < y.rows → j < y.cols →
        y.coeff i j =
          (∑ k in Finset.range l.A.cols, l.A.coeff i k * x.coeff k j) + l.b.coeff i j :=
  ⟨_, linear_forward_eq l x h1 h2 h3, rfl, rfl, fun _ _ _ _ => rfl⟩

/-- C2, amended, at the identity layer and the column `[1, 2]` over the reals. -/
theorem linear_forward_affine_witness :
    ∃ y : Mat ℝ, (identityLayer : Linear ℝ).forward (col2 1 2) = .ok y ∧
      y.rows = (identityLayer : Linear ℝ).A.rows ∧ y.cols = (col2 1 2 : Mat ℝ).cols ∧
      ∀ i j, i < y.rows → j < y.cols →
        y.coeff i j =
          (∑ k in Finset.range (identityLayer : Linear ℝ).A.cols,
            (identityLayer : Linear ℝ).A.coeff i k * (col2 1 2 : Mat ℝ).coeff k j)
            + (identityLayer : Linear ℝ).b.coeff i j :=
  linear_forward_affine identityLayer (col2 1 2) rfl rfl rfl

/-- C3 fails on the code for inputs of more than 128 rows: on the 129-row column of ones
`ReLU::forward` returns nothing, because the write `R_y(128, 0)` leaves the fixed
128-row buffer. -/
theorem relu_forward_129_rows_fails (R_y0 : Nat → ℝ) :
    ReLU.forward R_y0 ⟨129, 1, fun _ _ => 1⟩ = .error .eigenAssert :=
  relu_forward_large R_y0 _ (by decide) (by decide)

/-- C4 fails on the code: on the two-row column `[1, 2]` the matrix returned by
`ReLU::forward` has 128 rows, not 2, and its rows from the third on hold the indeterminate
initial content of the buffer. -/
theorem relu_forward_two_rows_gives_128 (R_y0 : Nat → ℝ) :
    ∃ y : Mat ℝ, ReLU.forward R_y0 (col2 1 2) = .ok y ∧ (col2 1 2 : Mat ℝ).rows = 2 ∧
      y.rows = 128 ∧ y.cols = 1 ∧ ∀ i, 2 ≤ i → y.coeff i 0 = R_y0 i := by
  obtain ⟨R, hR, hrows, hcols, -, hkeep⟩ :=
    relu_forward_small R_y0 (col2 1 2) (by decide) (by decide)
  exact ⟨R, hR, rfl, hrows, hcols, fun i hi =>
    hkeep i 0 (by rintro ⟨h, -⟩; have : i < 2 := h; omega)⟩

/-- C5: for a single-column real input with at least one row, `Softmax::forward` returns a
column of the same shape whose entry `i` is `exp(x[i]) / Σ_k exp(x[k])`, and these entries
sum to 1. -/
theorem softmax_sums_to_one (x : Mat ℝ) (hc : x.cols = 1) (hr : 0 < x.rows) :
    ∃ y : Mat ℝ, Softmax.forward Real.exp x = .ok y ∧ y.rows = x.rows ∧ y.cols = 1 ∧
      (∀ i, i < x.rows → y.coeff i 0 =
        Real.exp (x.coeff i 0) / ∑ k in Finset.range x.rows, Real.exp (x.coeff k 0)) ∧
      ∑ i in Finset.range y.rows, y.coeff i 0 = 1 := by
  obtain ⟨y, hy, hrows, hcols, hval, -⟩ := softmax_forward_eq Real.exp x (by omega)
  refine ⟨y, hy, hrows, by omega, hval, ?_⟩
  rw [hrows, Finset.sum_congr rfl (fun i hi => hval i (Finset.mem_range.mp hi)),
    ← Finset.sum_div]
  exact div_self (ne_of_gt (exp_sum_pos x hr))

/-- C5 at the column `[1, 2]`. -/
theorem softmax_sums_to_one_witness :
    ∃ y : Mat ℝ, Softmax.forward Real.exp (col2 1 2) = .ok y ∧
      y.rows = (col2 1 2 : Mat ℝ).rows ∧ y.cols = 1 ∧
      (∀ i, i < (col2 1 2 : Mat ℝ).rows → y.coeff i 0 =
        Real.exp ((col2 1 2 : Mat ℝ).coeff i 0) /
          ∑ k in Finset.range (col2 1 2 : Mat ℝ).rows,
            Real.exp ((col2 1 2 : Mat ℝ).coeff k 0)) ∧
      ∑ i in Finset.range y.rows, y.coeff i 0 = 1 :=
  softmax_sums_to_one (col2 1 2) rfl (by decide)

/-- C6: for a single-column real input with at least one row, every entry of
`Softmax::forward` is strictly positive and at most 1, and it equals 1 exactly when the
input has a single row. -/
theorem softmax_in_unit_interval (x : Mat ℝ) (hc : x.cols = 1) (hr : 0 < x.rows) :
    ∃ y : Mat ℝ, Softmax.forward Real.exp x = .ok y ∧ y.rows = x.rows ∧
      ∀ i, i < y.rows →
        0 < y.coeff i 0 ∧ y.coeff i 0 ≤ 1 ∧ (y.coeff i 0 = 1 ↔ x.rows = 1) := by
  obtain ⟨y, hy, hrows, -, hval, -⟩ := softmax_forward_eq Real.exp x (by omega)
  refine ⟨y, hy, hrows, ?_⟩
  intro i hi
  rw [hrows] at hi
  have hS := exp_sum_pos x hr
  have hmem : i ∈ Finset.range x.rows := Finset.mem_range.mpr hi
  have hsplit := Finset.add_sum_erase (Finset.range x.rows)
    (fun k => Real.exp (x.coeff k 0)) hmem
  have hrest : 0 ≤ ∑ k in (Finset.range x.rows).erase i, Real.exp (x.coeff k 0) :=
    Finset.sum_nonneg (fun k _ => le_of_lt (Real.exp_pos _))
  rw [hval i hi]
  refine ⟨div_pos (Real.exp_pos _) hS, ?_, ?_⟩
  · rw [div_le_one hS]
    simp only at hsplit
    linarith
  · rw [div_eq_one_iff_eq (ne_of_gt hS)]
    constructor
    · intro heq
      by_contra hne
      have hex : ∃ j, j < x.rows ∧ j ≠ i := by
        by_cases h0 : i = 0
        · exact ⟨1, by omega, by omega⟩
        · exact ⟨0, by omega, fun h => h0 h.symm⟩
      obtain ⟨j, hj, hji⟩ := hex
      have hpos : 0 < ∑ k in (Finset.range x.rows).erase i, Real.exp (x.coeff k 0) :=
        Finset.sum_pos (fun _ _ => Real.exp_pos _)
          ⟨j, Finset.mem_erase.mpr ⟨hji, Finset.mem_range.mpr hj⟩⟩
      simp only at hsplit
      linarith
    · intro h1
      have hi0 : i = 0 := by omega
      subst hi0
      rw [h1]
      simp

/-- C6 at the column `[1, 2]`. -/
theorem softmax_in_unit_interval_witness :
    ∃ y : Mat ℝ, Softmax.forward Real.exp (col2 1 2) = .ok y ∧
      y.rows = (col2 1 2 : Mat ℝ).rows ∧
      ∀ i, i < y.rows →
        0 < y.coeff i 0 ∧ y.coeff i 0 ≤ 1 ∧
          (y.coeff i 0 = 1 ↔ (col2 1 2 : Mat ℝ).rows = 1) :=
  softmax_in_unit_interval (col2 1 2) rfl (by decide)

/-- C7: `Softmax::forward` is strictly order-preserving on a single-column real input:
whenever `x[i] > x[j]`, the output entry `i` is greater than the output entry `j`. -/
theorem softmax_strictly_monotone (x : Mat ℝ) (hc : x.cols = 1) (i j : Nat)
    (hi : i < x.rows) (hj : j < x.rows) (hij : x.coeff i 0 > x.coeff j 0) :
    ∃ y : Mat ℝ, Softmax.forward Real.exp x = .ok y ∧ y.coeff i 0 > y.coeff j 0 := by
  obtain ⟨y, hy, -, -, hval, -⟩ := softmax_forward_eq Real.exp x (by omega)
  refine ⟨y, hy, ?_⟩
  rw [hval i hi, hval j hj]
  exact div_lt_div_of_pos_right (Real.exp_lt_exp.mpr hij) (exp_sum_pos x (by omega))

/-- C7 at the column `[2, 1]` and the rows 0 and 1. -/
theorem softmax_strictly_monotone_witness :
    ∃ y : Mat ℝ, Softmax.forward Real.exp (col2 2 1) = .ok y ∧
      y.coeff 0 0 > y.coeff 1 0 :=
  softmax_strictly_monotone (col2 2 1) rfl 0 1 (by decide) (by decide)
    (by simp [col2])

/-! ## The pipeline on the examples of the specification -/

/-- C8 fails on the code: on the identity network and any two-row column `[a, b]` (so on
`[1, 2]` and on `[-1, 3]`) the four calls made by `main` produce no output at all.  The
first layer returns `[a, b]`, `ReLU::forward` returns its 128-row buffer, and the product
of the 2-by-2 matrix `A2` with a 128-row column fails Eigen's size check. -/
theorem identity_network_pipeline_fails (R_y0 : Nat → ℝ) (a b : ℝ) :
    forwardPass Real.exp R_y0 identityLayer identityLayer (col2 a b)
      = .error .eigenAssert := by
  have h1 := linear_forward_eq (identityLayer : Linear ℝ) (col2 a b) rfl rfl rfl
  obtain ⟨R, hR, hrows, -, -, -⟩ :=
    relu_forward_small R_y0
      (⟨(identityLayer : Linear ℝ).A.rows, (col2 a b).cols, fun i j =>
        (∑ k in Finset.range (identityLayer : Linear ℝ).A.cols,
          (identityLayer : Linear ℝ).A.coeff i k * (col2 a b).coeff k j)
            + (identityLayer : Linear ℝ).b.coeff i j⟩ : Mat ℝ)
      Nat.zero_lt_one (show 2 ≤ 128 by decide)
  have hmul : (identityLayer : Linear ℝ).A.mul R = .error .eigenAssert := by
    simp [Mat.mul, identityLayer, hrows]
  unfold forwardPass
  rw [h1]
  show (ReLU.forward R_y0 _ >>= fun R_ans => _) = _
  rw [hR]
  simp [Linear.forward, hmul, bind, Except.bind]

/-- C9 fails on the code: whatever the initial content of the buffer of `ReLU::forward`,
`Softmax::forward` applied to the value of `ReLU::forward([-1, 3])` is not
`Softmax::forward([0, 3])`; the former has 128 rows, the latter 2. -/
theorem softmax_after_relu_counterexample :
    ¬ ∃ R_y0 : Nat → ℝ,
      (ReLU.forward R_y0 (col2 (-1) 3) >>= Softmax.forward Real.exp)
        = Softmax.forward Real.exp (col2 0 3) := by
  rintro ⟨R_y0, h⟩
  obtain ⟨R, hR, hrows, hcols, -, -⟩ :=
    relu_forward_small R_y0 (col2 (-1) 3) (by decide) (by decide)
  obtain ⟨y, hy, hyrows, -, -, -⟩ := softmax_forward_eq Real.exp R (by omega)
  obtain ⟨z, hz, hzrows, -, -, -⟩ :=
    softmax_forward_eq Real.exp (col2 (0 : ℝ) 3) (by decide)
  rw [hR] at h
  change Softmax.forward Real.exp R = _ at h
  rw [hy, hz] at h
  have hyz : y = z := by injection h
  have h2 : z.rows = 2 := hzrows
  rw [hyz] at hyrows
  omega

/-- Bounds on Euler's number used for the expected values. -/
theorem exp_one_bounds : (2.718 : ℝ) < Real.exp 1 ∧ Real.exp 1 < 2.719 :=
  ⟨lt_trans (by norm_num) Real.exp_one_gt_d9, lt_trans Real.exp_one_lt_d9 (by norm_num)⟩

/-- A quotient `p / q` with `q > 0` is closer than `ε` to `c` when `p` lies strictly
between `(c - ε) * q` and `(c + ε) * q`. -/
theorem abs_div_sub_lt {p q c ε : ℝ} (hq : 0 < q) (h1 : (c - ε) * q < p)
    (h2 : p < (c + ε) * q) : |p / q - c| < ε := by
  rw [abs_lt]
  constructor
  · rw [lt_sub_iff_add_lt, lt_div_iff₀ hq]; linarith
  · rw [sub_lt_iff_lt_add, div_lt_iff₀ hq]; linarith

/-- The expected values of the two examples hold for the layers taken one at a time:
`Softmax::forward([1, 2])` is less than 0.0005 away from `(0.269, 0.731)`; the first two
rows of `ReLU::forward([-1, 3])` are `0` and `3`; and `Softmax::forward([0, 3])` is less
than 0.0005 away from `(0.047, 0.953)`. -/
theorem softmax_expected_values (R_y0 : Nat → ℝ) :
    (∃ y : Mat ℝ, Softmax.forward Real.exp (col2 1 2) = .ok y ∧
      |y.coeff 0 0 - 0.269| < 0.0005 ∧ |y.coeff 1 0 - 0.731| < 0.0005) ∧
    (∃ R : Mat ℝ, ReLU.forward R_y0 (col2 (-1) 3) = .ok R ∧
      R.coeff 0 0 = 0 ∧ R.coeff 1 0 = 3) ∧
    (∃ y : Mat ℝ, Softmax.forward Real.exp (col2 0 3) = .ok y ∧
      |y.coeff 0 0 - 0.047| < 0.0005 ∧ |y.coeff 1 0 - 0.953| < 0.0005) := by
  obtain ⟨hlo, hhi⟩ := exp_one_bounds
  have he : 0 < Real.exp 1 := Real.exp_pos 1
  have h2 : Real.exp 2 = Real.exp 1 * Real.exp 1 := by
    rw [← Real.exp_add]; norm_num
  have h3 : Real.exp 3 = Real.exp 1 * Real.exp 1 * Real.exp 1 := by
    rw [← Real.exp_add, ← Real.exp_add]; norm_num
  have hsq_lo : (7.387 : ℝ) < Real.exp 1 * Real.exp 1 := by nlinarith
  have hsq_hi : Real.exp 1 * Real.exp 1 < 7.393 := by nlinarith
  have hcu_lo : (20.07 : ℝ) < Real.exp 1 * Real.exp 1 * Real.exp 1 := by nlinarith
  have hcu_hi : Real.exp 1 * Real.exp 1 * Real.exp 1 < 20.11 := by nlinarith
  refine ⟨?_, ?_, ?_⟩
  · obtain ⟨y, hy, -, -, hval, -⟩ := softmax_forward_eq Real.exp (col2 (1 : ℝ) 2) (by decide)
    have hden : 0 < Real.exp 1 + Real.exp 1 * Real.exp 1 := by positivity
    have hv0 : y.coeff 0 0 = Real.exp 1 / (Real.exp 1 + Real.exp 1 * Real.exp 1) := by
      rw [hval 0 (by decide)]
      simp [col2, Finset.sum_range_succ, h2]
    have hv1 : y.coeff 1 0 =
        (Real.exp 1 * Real.exp 1) / (Real.exp 1 + Real.exp 1 * Real.exp 1) := by
      rw [hval 1 (by decide)]
      simp [col2, Finset.sum_range_succ, h2]
    refine ⟨y, hy, ?_, ?_⟩
    · rw [hv0]
      exact abs_div_sub_lt hden (by nlinarith) (by nlinarith)
    · rw [hv1]
      exact abs_div_sub_lt hden (by nlinarith) (by nlinarith)
  · obtain ⟨R, hR, -, -, hlow, -⟩ :=
      relu_forward_small R_y0 (col2 (-1) 3) (by decide) (by decide)
    refine ⟨R, hR, ?_, ?_⟩
    · rw [hlow 0 (by decide)]; simp [col2]
    · rw [hlow 1 (by decide)]; simp [col2]
  · obtain ⟨y, hy, -, -, hval, -⟩ := softmax_forward_eq Real.exp (col2 (0 : ℝ) 3) (by decide)
    have hden : 0 < 1 + Real.exp 1 * Real.exp 1 * Real.exp 1 := by positivity
    have hv0 : y.coeff 0 0 = 1 / (1 + Real.exp 1 * Real.exp 1 * Real.exp 1) := by
      rw [hval 0 (by decide)]
      simp [col2, Finset.sum_range_succ, h3]
    have hv1 : y.coeff 1 0 =
        (Real.exp 1 * Real.exp 1 * Real.exp 1) /
          (1 + Real.exp 1 * Real.exp 1 * Real.exp 1) := by
      rw [hval 1 (by decide)]
      simp [col2, Finset.sum_range_succ, h3]
    refine ⟨y, hy, ?_, ?_⟩
    · rw [hv0]
      exact abs_div_sub_lt hden (by nlinarith) (by nlinarith)
    · rw [hv1]
      exact abs_div_sub_lt hden (by nlinarith) (by nlinarith)

/-! ## The driver -/

/-- A file written by `fileOf` with the header `r c` and `r * c` numbers loads as the
`r`-by-`c` matrix of these numbers in row-major order. -/
theorem fileOf_values [NatCast α] [Zero α] (g : Indet α) (r c : Nat) (vs : List Nat)
    (hr : 1 ≤ r) (hc : 1 ≤ c) (hlen : vs.length = r * c) :
    ∃ (m : Mat α) (s : IStream α), csv2mat g (fileOf (r :: c :: vs)) = (.ok m, s) ∧
      m.rows = r ∧ m.cols = c ∧
      ∀ row col, row < r → col < c →
        (vs.map (Nat.cast : Nat → α))[row * c + col]? = some (m.coeff row col) :=
  csv2mat_loads g r c (numToken r) (numToken c) (vs.map numToken)
    (vs.map (Nat.cast : Nat → α)) true hr hc (by simp [numToken]) (by simp [numToken])
    (by simp [List.map_map, Function.comp_def, numToken]) (by simpa using hlen)

/-- A file written by `fileOf` with the header `r c` and `r * c` numbers loads as an
`r`-by-`c` matrix. -/
theorem fileOf_loads [NatCast α] [Zero α] (g : Indet α) (r c : Nat) (vs : List Nat)
    (hr : 1 ≤ r) (hc : 1 ≤ c) (hlen : vs.length = r * c) :
    ∃ (m : Mat α) (s : IStream α), csv2mat g (fileOf (r :: c :: vs)) = (.ok m, s) ∧
      m.rows = r ∧ m.cols = c := by
  obtain ⟨m, s, h, h1, h2, -⟩ := fileOf_values g r c vs hr hc hlen
  exact ⟨m, s, h, h1, h2⟩

/-- The constructor of `Linear` succeeds when both files load, and keeps their matrices. -/
theorem construct_ok [Zero α] (gA gb : Indet α) (files : String → IStream α)
    (fA fb : String) (A b : Mat α) (sA sb : IStream α)
    (hA : csv2mat gA (files fA) = (.ok A, sA)) (hb : csv2mat gb (files fb) = (.ok b, sb)) :
    Linear.construct gA gb files fA fb = .ok ⟨A, b⟩ := by
  simp [Linear.construct, hA, hb, bind, Except.bind, pure, Except.pure]

/-- The four layer calls succeed when the shapes fit Eigen's checks and the fixed buffer of
`ReLU::forward`: the output then has the rows of `A2` and one column. -/
theorem forwardPass_ok [Field α] [LinearOrder α] (exp : α → α) (R_y0 : Nat → α)
    (l1 l2 : Linear α) (X : Mat α)
    (h1 : l1.A.cols = X.rows) (h2 : l1.A.rows = l1.b.rows) (h3 : X.cols = l1.b.cols)
    (h4 : 0 < X.cols) (h5 : l1.A.rows ≤ 128)
    (h6 : l2.A.cols = 128) (h7 : l2.A.rows = l2.b.rows) (h8 : l2.b.cols = 1) :
    ∃ P : Mat α, forwardPass exp R_y0 l1 l2 X = .ok P ∧ P.rows = l2.A.rows ∧ P.cols = 1 := by
  have e1 := linear_forward_eq l1 X h1 h2 h3
  obtain ⟨R, hR, hrows, hcols, -, -⟩ :=
    relu_forward_small R_y0
      (⟨l1.A.rows, X.cols, fun i j =>
        (∑ k in Finset.range l1.A.cols, l1.A.coeff i k * X.coeff k j) + l1.b.coeff i j⟩ : Mat α)
      h4 h5
  have e2 := linear_forward_eq l2 R (by omega) h7 (by omega)
  obtain ⟨P, hP, hProws, hPcols, -, -⟩ :=
    softmax_forward_eq exp
      (⟨l2.A.rows, R.cols, fun i j =>
        (∑ k in Finset.range l2.A.cols, l2.A.coeff i k * R.coeff k j) + l2.b.coeff i j⟩ : Mat α)
      (by show 0 < R.cols; omega)
  refine ⟨P, ?_, hProws, by rw [hPcols]; exact hcols⟩
  unfold forwardPass
  rw [e1]
  show (ReLU.forward R_y0 _ >>= fun R_ans => _) = _
  rw [hR]
  show (l2.forward R >>= fun l_ans => _) = _
  rw [e2]
  show (Softmax.forward exp _ >>= fun probabilities => _) = _
  rw [hP]
  rfl

/-- The four layer calls fail when the sample does not have as many rows as `A1` has
columns. -/
theorem forwardPass_shape_error [Semiring α] [LinearOrder α] [Div α] (exp : α → α)
    (R_y0 : Nat → α) (l1 l2 : Linear α) (X : Mat α) (h : l1.A.cols ≠ X.rows) :
    forwardPass exp R_y0 l1 l2 X = .error .eigenAssert := by
  simp [forwardPass, Linear.forward, Mat.mul, h, bind, Except.bind]

/-- The loop over the data files when every sample loads and passes the four layers: one
line per file is appended, in the order of the files. -/
theorem sampleLoop_ok [Semiring α] [LinearOrder α] [Div α] (exp : α → α) (w : World α)
    (l1 l2 : Linear α) (p : Nat → Mat α) :
    ∀ (names : List String) (k : Nat) (out : List (List α)),
      (∀ i name, names[i]? = some name →
        ∃ X s, csv2mat (w.indet (4 + (k + i))) (w.files name) = (.ok X, s) ∧
          forwardPass exp (w.R_y0 (k + i)) l1 l2 X = .ok (p (k + i))) →
      sampleLoop exp w l1 l2 k names out =
        (out ++ (List.range names.length).map (fun i => (p (k + i)).entries), .ok ()) := by
  intro names
  induction names with
  | nil => intro k out _; simp [sampleLoop]
  | cons f rest ih =>
    intro k out h
    obtain ⟨X, s, hX, hP⟩ := h 0 f (by simp)
    have hrest := ih (k + 1) (out ++ [(p k).entries]) (fun i name hi => by
      have := h (i + 1) name (by simpa using hi)
      have e : k + (i + 1) = k + 1 + i := by omega
      rw [e] at this
      exact this)
    simp only [Nat.add_zero] at hX hP
    simp only [sampleLoop, hX, hP, bind, Except.bind]
    rw [hrest]
    simp [List.range_succ_eq_map, List.map_map, Function.comp_def, Nat.add_assoc,
      Nat.add_comm 1]

/-- The weights of `exampleWorld` load: `A1` is 128-by-1 and `b1` is 128-by-1, `A2` is
1-by-128 and `b2` is 1-by-1. -/
theorem exampleWorld_weights [NatCast α] [Zero α] :
    ∃ l1 l2 : Linear α,
      Linear.construct ((exampleWorld : World α).indet 0) ((exampleWorld : World α).indet 1)
        (exampleWorld : World α).files "A1.csv" "b1.csv" = .ok l1 ∧
      Linear.construct ((exampleWorld : World α).indet 2) ((exampleWorld : World α).indet 3)
        (exampleWorld : World α).files "A2.csv" "b2.csv" = .ok l2 ∧
      l1.A.rows = 128 ∧ l1.A.cols = 1 ∧ l1.b.rows = 128 ∧ l1.b.cols = 1 ∧
      l2.A.rows = 1 ∧ l2.A.cols = 128 ∧ l2.b.rows = 1 ∧ l2.b.cols = 1 := by
  obtain ⟨A1, s1, e1, r1, c1⟩ := fileOf_loads ((exampleWorld : World α).indet 0) 128 1
    (List.replicate 128 1) (by decide) (by decide) (by simp)
  obtain ⟨b1, s2, e2, r2, c2⟩ := fileOf_loads ((exampleWorld : World α).indet 1) 128 1
    (List.replicate 128 0) (by decide) (by decide) (by simp)
  obtain ⟨A2, s3, e3, r3, c3⟩ := fileOf_loads ((exampleWorld : World α).indet 2) 1 128
    (List.replicate 128 1) (by decide) (by decide) (by simp)
  obtain ⟨b2, s4, e4, r4, c4⟩ := fileOf_loads ((exampleWorld : World α).indet 3) 1 1
    [0] (by decide) (by decide) (by simp)
  exact ⟨⟨A1, b1⟩, ⟨A2, b2⟩,
    construct_ok _ _ _ "A1.csv" "b1.csv" A1 b1 s1 s2 e1 e2,
    construct_ok _ _ _ "A2.csv" "b2.csv" A2 b2 s3 s4 e3 e4,
    r1, c1, r2, c2, r3, c3, r4, c4⟩

/-- When the four weight files load and every input file both loads and passes the four
layers, `main` ends normally having written exactly one line per input file, and line `k`
holds the entries of the forward-pass result of the `k`-th file. -/
theorem main_lines_ok [Semiring α] [LinearOrder α] [Div α] (exp : α → α)
    (w : World α) (argv : List String) (l1 l2 : Linear α) (p : Nat → Mat α)
    (h1 : Linear.construct (w.indet 0) (w.indet 1) w.files "A1.csv" "b1.csv" = .ok l1)
    (h2 : Linear.construct (w.indet 2) (w.indet 3) w.files "A2.csv" "b2.csv" = .ok l2)
    (hall : ∀ k name, (dataFilenames argv)[k]? = some name →
      ∃ X s, csv2mat (w.indet (4 + k)) (w.files name) = (.ok X, s) ∧
        forwardPass exp (w.R_y0 k) l1 l2 X = .ok (p k)) :
    (main exp w argv).exit = .ok () ∧
    (main exp w argv).lines.length = (dataFilenames argv).length ∧
    ∀ k, k < (dataFilenames argv).length →
      (main exp w argv).lines[k]? = some (p k).entries := by
  have hloop := sampleLoop_ok exp w l1 l2 p (dataFilenames argv) 0 [] (fun i name hi => by
    simpa using hall i name hi)
  have hmain : main exp w argv = ⟨true, [] ++ (List.range (dataFilenames argv).length).map
      (fun i => (p (0 + i)).entries), .ok ()⟩ := by
    simp only [main, h1, h2, hloop]
  rw [hmain]
  refine ⟨rfl, by simp, ?_⟩
  intro k hk
  simp [hk]

/-! ## The loader against the specification -/

/-- C13, as stated, fails: on the stream `2 2 1 2`, whose header announces four values and
which holds two, `csv2mat` raises no failure; it returns a 2-by-2 matrix whose second row
holds the indeterminate content of `x` (here `77`). -/
theorem csv2mat_short_stream_counterexample :
    ∃ m s, csv2mat (⟨0, 0, fun _ => 77, fun _ _ => 0⟩ : Indet Int) (fileOf [2, 2, 1, 2])
        = (.ok m, s) ∧
      m.rows = 2 ∧ m.cols = 2 ∧ m.coeff 0 0 = 1 ∧ m.coeff 0 1 = 2 ∧
      m.coeff 1 0 = 77 ∧ m.coeff 1 1 = 77 :=
  ⟨_, _, rfl, rfl, rfl, rfl, rfl, rfl, rfl⟩

/-- C13, amended: on a good stream whose header `r c` (`r, c ≥ 1`) is followed by the
values `vs`, fewer than `r * c`, and then by anything (in particular by the end of the
stream or by a token that is not a number), `csv2mat` raises no failure: it returns an
`r`-by-`c` matrix, every write being inside the matrix, and the cells of row-major index
below the number of values hold these values. -/
theorem csv2mat_short_stream [Zero α] (g : Indet α) (r c : Nat) (tr tc : Token α)
    (ts rest : List (Token α)) (vs : List α) (t : Bool)
    (hr : 1 ≤ r) (hc : 1 ≤ c)
    (htr : tr.asInt = some (r : Int)) (htc : tc.asInt = some (c : Int))
    (hts : ts.map Token.asDouble = vs.map some) (hshort : vs.length < r * c) :
    ∃ m s, csv2mat g ⟨false, false, tr :: tc :: (ts ++ rest), t⟩ = (.ok m, s) ∧
      m.rows = r ∧ m.cols = c ∧
      ∀ row col, row < r → col < c → row * c + col < vs.length →
        vs[row * c + col]? = some (m.coeff row col) := by
  have hlts : ts.length = vs.length := by
    have := congrArg List.length hts
    simpa using this
  obtain ⟨m, s, hrun, h1, h2, hprop⟩ :=
    readLoop_prefix_values g r c (fun k => vs.getD k 0) rest t ts (r * c + 1) 0 0 0
      ⟨r, c, g.mat0⟩ ((ts ++ rest).isEmpty && !t) rfl rfl (by omega) (by omega) (by simp)
      (by omega)
      (by intro hne; cases ts with
        | nil => exact absurd rfl hne
        | cons _ _ => rfl)
      (by omega) (token_values ts vs hts) (values_clean ts vs hts)
  refine ⟨m, s, ?_, h1, h2, ?_⟩
  · rw [csv2mat_header g r c tr tc (ts ++ rest) t htr htc]
    exact hrun
  · intro row col _ hcol hidx
    rw [(hprop row col hcol).2 (Nat.zero_le _) (by omega)]
    rw [List.getD_eq_getElem?_getD, List.getElem?_eq_getElem hidx]
    rfl

/-- C13, amended, at the stream `2 2 1 2` over the integers. -/
theorem csv2mat_short_stream_witness :
    ∃ m s, csv2mat (⟨0, 0, fun _ => 77, fun _ _ => 0⟩ : Indet Int)
        ⟨false, false, numToken 2 :: numToken 2 :: ([numToken 1, numToken 2] ++ []), true⟩
        = (.ok m, s) ∧
      m.rows = 2 ∧ m.cols = 2 ∧
      ∀ row col, row < 2 → col < 2 → row * 2 + col < ([1, 2] : List Int).length →
        ([1, 2] : List Int)[row * 2 + col]? = some (m.coeff row col) :=
  csv2mat_short_stream _ 2 2 _ _ _ [] [1, 2] true (by decide) (by decide) rfl rfl rfl
    (by decide)

/-- C16: on a good stream whose header `r c` (`r, c ≥ 1`) is followed by the `r * c` values
`vs` and then by any further tokens `extra`, `csv2mat` returns the matrix that it returns for
the stream cut after these `r * c` values, with entry `(row, col)` the value number
`row * c + col`, and leaves exactly the tokens `extra` unread. -/
theorem csv2mat_ignores_extra [Zero α] (g : Indet α) (r c : Nat) (tr tc : Token α)
    (ts extra : List (Token α)) (vs : List α) (t1 t2 : Bool)
    (hr : 1 ≤ r) (hc : 1 ≤ c)
    (htr : tr.asInt = some (r : Int)) (htc : tc.asInt = some (c : Int))
    (hts : ts.map Token.asDouble = vs.map some) (hlen : vs.length = r * c) :
    ∃ m s s0, csv2mat g ⟨false, false, tr :: tc :: (ts ++ extra), t1⟩ = (.ok m, s) ∧
      s.toks = extra ∧
      csv2mat g ⟨false, false, tr :: tc :: ts, t2⟩ = (.ok m, s0) ∧
      m.rows = r ∧ m.cols = c ∧
      ∀ row col, row < r → col < c → vs[row * c + col]? = some (m.coeff row col) := by
  obtain ⟨m, s0, hcut, h1, h2, h3⟩ :=
    csv2mat_loads g r c tr tc ts vs t2 hr hc htr htc hts hlen
  have hlts : ts.length = r * c := by
    have := congrArg List.length hts
    simpa [hlen] using this
  have hpos : 0 < r * c := Nat.mul_pos hr hc
  have hnum : ∀ tk, tk ∈ ts → ∃ x, tk.asDouble = some x := by
    intro tk htk
    have hmem : tk.asDouble ∈ ts.map Token.asDouble := List.mem_map_of_mem _ htk
    rw [hts] at hmem
    obtain ⟨x, -, hx⟩ := List.mem_map.mp hmem
    exact ⟨x, hx.symm⟩
  have hemp1 : (ts ++ extra).isEmpty = false := by
    cases ts with
    | nil => simp at hlts; omega
    | cons _ _ => rfl
  have hemp2 : (ts ++ ([] : List (Token α))).isEmpty = false := by
    cases ts with
    | nil => simp at hlts; omega
    | cons _ _ => rfl
  obtain ⟨hsame, htoks⟩ :=
    readLoop_ignores_rest g r c extra [] t1 t2 ts (r * c + 1) 0 0 0 ⟨r, c, g.mat0⟩
      rfl rfl (by omega) (by omega) (by simp) (by omega) (by omega) hnum
      (values_clean ts vs hts)
  have hfull := csv2mat_header g r c tr tc (ts ++ extra) t1 htr htc
  have hcut2 := csv2mat_header g r c tr tc (ts ++ []) t2 htr htc
  rw [hemp1, Bool.false_and] at hfull
  rw [hemp2, Bool.false_and] at hcut2
  rw [List.append_nil] at hcut2 hsame
  refine ⟨m, (csv2mat g ⟨false, false, tr :: tc :: (ts ++ extra), t1⟩).2, s0, ?_, ?_,
    hcut, h1, h2, h3⟩
  · have hfst : (csv2mat g ⟨false, false, tr :: tc :: (ts ++ extra), t1⟩).1 = .ok m := by
      rw [hfull, hsame, ← hcut2, hcut]
    exact Prod.ext hfst rfl
  · rw [hfull]; exact htoks

/-- C16 at the stream `1 2 7 8 9`, whose header announces two values, over the integers. -/
theorem csv2mat_ignores_extra_witness :
    ∃ m s s0, csv2mat (⟨0, 0, fun _ => 0, fun _ _ => 0⟩ : Indet Int)
        ⟨false, false, numToken 1 :: numToken 2 :: ([numToken 7, numToken 8] ++ [numToken 9]),
          true⟩ = (.ok m, s) ∧
      s.toks = [numToken 9] ∧
      csv2mat (⟨0, 0, fun _ => 0, fun _ _ => 0⟩ : Indet Int)
        ⟨false, false, numToken 1 :: numToken 2 :: [numToken 7, numToken 8], true⟩
          = (.ok m, s0) ∧
      m.rows = 1 ∧ m.cols = 2 ∧
      ∀ row col, row < 1 → col < 2 →
        ([7, 8] : List Int)[row * 2 + col]? = some (m.coeff row col) :=
  csv2mat_ignores_extra _ 1 2 _ _ _ [numToken 9] [7, 8] true true (by decide) (by decide)
    rfl rfl rfl rfl

/-- Outside text content the loop can end early: on the stream `2 2 1 2` continued by a NUL
byte right after the last digit, the loop test `ifs.peek() != ifs.eof()` compares the code
`0` with `false` and ends the loop after two of the four iterations: a budget of three
iterations is not exhausted, the second row of the returned matrix is never written (it
holds the initial content `99` of the storage) and the token that begins at the NUL byte is
left unread. -/
theorem csv2mat_nul_stops_early :
    (∃ m s, csv2mat (⟨0, 0, fun _ => 0, fun _ _ => 99⟩ : Indet Int)
        ⟨false, false, [numToken 2, numToken 2, numToken 1, numToken 2, nulToken],
          false⟩ = (.ok m, s) ∧
      m.coeff 0 0 = 1 ∧ m.coeff 0 1 = 2 ∧ m.coeff 1 0 = 99 ∧ m.coeff 1 1 = 99 ∧
      s.toks.length = 1) ∧
    (3 < 2 * 2 ∧ ∃ m, (readLoop (⟨0, 0, fun _ => 0, fun _ _ => 99⟩ : Indet Int) 2 2 3 0 0 0
        ⟨2, 2, fun _ _ => 99⟩
        ⟨false, false, [numToken 1, numToken 2, nulToken], false⟩).1 = .ok m) :=
  ⟨⟨_, _, rfl, rfl, rfl, rfl, rfl, rfl⟩, by decide, _, rfl⟩

/-- C20: after a header `r c` with `r ≥ 1` and `c ≥ 1`, `csv2mat` runs its loop from the
cell `(0, 0)`; the loop ends within `r * c` iterations (a budget of at least `r * c`
iterations is never exhausted) with a matrix of the declared shape, so that every write
`mat(row, col)`, which Eigen checks, has `row < r` and `col < c`.  On whitespace-separated
text, that is when no token of the remaining content begins at a NUL byte, whether it
holds more than, exactly or fewer than `r * c` values or nothing at all, the loop makes
exactly `r * c` iterations: a budget of `fuel` iterations is exhausted exactly when
`fuel < r * c`.  The precondition is needed: after a header with `rows == 0` or
`cols == 0` the first write of such a run is outside the matrix. -/
theorem csv2mat_loop_terminates [Zero α] (g : Indet α) (r c : Nat) (tr tc : Token α)
    (rest : List (Token α)) (t : Bool) (hr : 1 ≤ r) (hc : 1 ≤ c)
    (htr : tr.asInt = some (r : Int)) (htc : tc.asInt = some (c : Int)) :
    csv2mat g ⟨false, false, tr :: tc :: rest, t⟩ =
      readLoop g r c (r * c + 1) 0 0 0 ⟨r, c, g.mat0⟩ ⟨false, rest.isEmpty && !t, rest, t⟩ ∧
    (∀ fuel, r * c ≤ fuel → (readLoop g r c fuel 0 0 0 ⟨r, c, g.mat0⟩
        ⟨false, rest.isEmpty && !t, rest, t⟩).1 ≠ .error .outOfFuel) ∧
    (∃ m s, csv2mat g ⟨false, false, tr :: tc :: rest, t⟩ = (.ok m, s) ∧
      m.rows = r ∧ m.cols = c) ∧
    ((∀ tk ∈ rest, tk.first ≠ 0) →
      ∀ fuel, (readLoop g r c fuel 0 0 0 ⟨r, c, g.mat0⟩
        ⟨false, rest.isEmpty && !t, rest, t⟩).1 = .error .outOfFuel ↔ fuel < r * c) ∧
    (∀ (r0 c0 : Nat) (tr0 tc0 : Token α), tr0.asInt = some (r0 : Int) →
      tc0.asInt = some (c0 : Int) → r0 = 0 ∨ c0 = 0 → (∀ tk ∈ rest, tk.first ≠ 0) →
      (csv2mat g ⟨false, false, tr0 :: tc0 :: rest, t⟩).1 = .error .eigenAssert) := by
  have hhead := csv2mat_header g r c tr tc rest t htr htc
  refine ⟨hhead, ?_, ?_, ?_, ?_⟩
  · intro fuel hfuel
    obtain ⟨m, s, hrun, -, -, -⟩ :=
      readLoop_total g r c fuel 0 0 0 ⟨r, c, g.mat0⟩
        ⟨false, rest.isEmpty && !t, rest, t⟩ rfl rfl (by omega) (by omega) (by simp)
        (by omega)
    rw [hrun]
    simp
  · obtain ⟨m, s, hrun, h1, h2, -⟩ :=
      readLoop_total g r c (r * c + 1) 0 0 0 ⟨r, c, g.mat0⟩
        ⟨false, rest.isEmpty && !t, rest, t⟩ rfl rfl (by omega) (by omega) (by simp)
        (by omega)
    exact ⟨m, s, hhead.trans hrun, h1, h2⟩
  · intro hclean fuel
    have := readLoop_outOfFuel_iff g r c fuel 0 0 0 ⟨r, c, g.mat0⟩
      ⟨false, rest.isEmpty && !t, rest, t⟩ rfl rfl (by omega) (by omega) (by simp) hclean
    simpa using this
  · intro r0 c0 tr0 tc0 h1 h2 h0 hclean
    rw [csv2mat_header g r0 c0 tr0 tc0 rest t h1 h2]
    exact readLoop_empty g r0 c0 (r0 * c0) 0 ⟨r0, c0, g.mat0⟩ _ h0
      (atNul_of_clean _ hclean)

/-- C20 at the header `2 3` followed by the single value `5`, over the integers. -/
theorem csv2mat_loop_terminates_witness :
    (∀ fuel, 2 * 3 ≤ fuel →
      (readLoop (⟨0, 0, fun _ => 0, fun _ _ => 0⟩ : Indet Int) (2 : Nat) (3 : Nat)
        fuel 0 0 0 ⟨2, 3, fun _ _ => 0⟩
        ⟨false, ([numToken 5] : List (Token Int)).isEmpty && !true, [numToken 5], true⟩).1
          ≠ .error .outOfFuel) ∧
    (∃ m s, csv2mat (⟨0, 0, fun _ => 0, fun _ _ => 0⟩ : Indet Int)
        ⟨false, false, numToken 2 :: numToken 3 :: [numToken 5], true⟩ = (.ok m, s) ∧
      m.rows = 2 ∧ m.cols = 3) ∧
    (∀ fuel, (readLoop (⟨0, 0, fun _ => 0, fun _ _ => 0⟩ : Indet Int) (2 : Nat) (3 : Nat)
        fuel 0 0 0 ⟨2, 3, fun _ _ => 0⟩
        ⟨false, ([numToken 5] : List (Token Int)).isEmpty && !true, [numToken 5], true⟩).1
          = .error .outOfFuel ↔ fuel < 2 * 3) :=
  ⟨(csv2mat_loop_terminates (⟨0, 0, fun _ => 0, fun _ _ => 0⟩ : Indet Int) 2 3
      (numToken 2) (numToken 3) [numToken 5] true (by decide) (by decide) rfl rfl).2.1,
    (csv2mat_loop_terminates (⟨0, 0, fun _ => 0, fun _ _ => 0⟩ : Indet Int) 2 3
      (numToken 2) (numToken 3) [numToken 5] true (by decide) (by decide) rfl rfl).2.2.1,
    (csv2mat_loop_terminates (⟨0, 0, fun _ => 0, fun _ _ => 0⟩ : Indet Int) 2 3
      (numToken 2) (numToken 3) [numToken 5] true (by decide) (by decide) rfl rfl).2.2.2.1
      (by simp [numToken])⟩

/-! ## Shape checks and the stabilised softmax -/

/-- Without one of the two sizes that the specification requires, the expression
`A * x + b` of `Linear::forward` fails Eigen's size check. -/
theorem linear_forward_mismatch [Semiring α] (l : Linear α) (x : Mat α)
    (h : l.A.cols ≠ x.rows ∨ l.A.rows ≠ l.b.rows) :
    l.forward x = .error .eigenAssert := by
  by_cases h1 : l.A.cols = x.rows
  · have h2 : l.A.rows ≠ l.b.rows := by
      rcases h with h | h
      · exact absurd h1 h
      · exact h
    simp [Linear.forward, Mat.mul, Mat.add, h1, h2, bind, Except.bind]
  · simp [Linear.forward, Mat.mul, h1, bind, Except.bind]

/-- C14, as stated, fails: with `A` and `b` 1-by-1 and `x` the column `[1, 2]` the size
`A.cols` differs from `x.rows`; `Linear::forward` contains no check of its own, the
product fails Eigen's assertion, and the failure is not a `DimensionMismatch` error. -/
theorem linear_forward_mismatch_counterexample :
    (⟨1, 1, fun _ _ => 1⟩ : Mat ℝ).cols ≠ (col2 1 2 : Mat ℝ).rows ∧
    Linear.forward (⟨⟨1, 1, fun _ _ => 1⟩, ⟨1, 1, fun _ _ => 0⟩⟩ : Linear ℝ) (col2 1 2)
      = .error .eigenAssert ∧
    Linear.forward (⟨⟨1, 1, fun _ _ => 1⟩, ⟨1, 1, fun _ _ => 0⟩⟩ : Linear ℝ) (col2 1 2)
      ≠ .error .dimensionMismatch := by
  have h := linear_forward_mismatch
    (⟨⟨1, 1, fun _ _ => 1⟩, ⟨1, 1, fun _ _ => 0⟩⟩ : Linear ℝ) (col2 1 2)
    (Or.inl (by decide))
  refine ⟨by decide, h, ?_⟩
  rw [h]
  simp

/-- C14, amended: when `A.cols != x.rows` or `A.rows != b.rows`, `Linear::forward` returns
no matrix: the expression `A * x + b` fails Eigen's size check, which is the only check
made. -/
theorem linear_forward_no_matrix [Semiring α] (l : Linear α) (x : Mat α)
    (h : l.A.cols ≠ x.rows ∨ l.A.rows ≠ l.b.rows) :
    l.forward x = .error .eigenAssert ∧ ∀ y, l.forward x ≠ .ok y := by
  have h1 := linear_forward_mismatch l x h
  refine ⟨h1, ?_⟩
  intro y
  rw [h1]
  simp

/-- C14, amended, at the identity layer and a 3-by-1 column over the reals. -/
theorem linear_forward_no_matrix_witness :
    (identityLayer : Linear ℝ).forward ⟨3, 1, fun _ _ => 1⟩ = .error .eigenAssert ∧
    ∀ y, (identityLayer : Linear ℝ).forward ⟨3, 1, fun _ _ => 1⟩ ≠ .ok y :=
  linear_forward_no_matrix identityLayer ⟨3, 1, fun _ _ => 1⟩ (Or.inl (by decide))

/-- C15, as stated, fails: the 1-by-2 input `[0, 5]` is not rejected; `Softmax::forward`
returns a matrix whose column 0 is normalised (`1`) and whose column 1 is the input
entry `5`. -/
theorem softmax_two_columns_counterexample :
    ∃ y : Mat ℝ,
      Softmax.forward Real.exp ⟨1, 2, fun _ j => if j = 0 then 0 else 5⟩ = .ok y ∧
      y.rows = 1 ∧ y.cols = 2 ∧ y.coeff 0 0 = 1 ∧ y.coeff 0 1 = 5 := by
  obtain ⟨y, hy, hrows, hcols, hval, hkeep⟩ :=
    softmax_forward_eq Real.exp (⟨1, 2, fun _ j => if j = 0 then 0 else 5⟩ : Mat ℝ)
      (by decide)
  refine ⟨y, hy, hrows, hcols, ?_, ?_⟩
  · rw [hval 0 (by decide)]
    simp
  · rw [hkeep 0 1 (by decide)]
    simp

/-- C15, amended: an input with more than one column is not rejected: `Softmax::forward`
returns a matrix of the shape of the input in which column 0 holds
`exp(x[i][0]) / Σ_k exp(x[k][0])` and every other column is copied from the input. -/
theorem softmax_multi_column (x : Mat ℝ) (h : 1 < x.cols) :
    ∃ y : Mat ℝ, Softmax.forward Real.exp x = .ok y ∧ y.rows = x.rows ∧ y.cols = x.cols ∧
      (∀ i, i < x.rows → y.coeff i 0 =
        Real.exp (x.coeff i 0) / ∑ k in Finset.range x.rows, Real.exp (x.coeff k 0)) ∧
      (∀ i j, j ≠ 0 → y.coeff i j = x.coeff i j) :=
  softmax_forward_eq Real.exp x (by omega)

/-- C15, amended, at the 1-by-2 input `[0, 5]`. -/
theorem softmax_multi_column_witness :
    ∃ y : Mat ℝ,
      Softmax.forward Real.exp ⟨1, 2, fun _ j => if j = 0 then 0 else 5⟩ = .ok y ∧
      y.rows = (⟨1, 2, fun _ j => if j = 0 then 0 else 5⟩ : Mat ℝ).rows ∧
      y.cols = (⟨1, 2, fun _ j => if j = 0 then 0 else 5⟩ : Mat ℝ).cols ∧
      (∀ i, i < (⟨1, 2, fun _ j => if j = 0 then 0 else 5⟩ : Mat ℝ).rows → y.coeff i 0 =
        Real.exp ((⟨1, 2, fun _ j => if j = 0 then 0 else 5⟩ : Mat ℝ).coeff i 0) /
          ∑ k in Finset.range (⟨1, 2, fun _ j => if j = 0 then 0 else 5⟩ : Mat ℝ).rows,
            Real.exp ((⟨1, 2, fun _ j => if j = 0 then 0 else 5⟩ : Mat ℝ).coeff k 0)) ∧
      (∀ i j, j ≠ 0 →
        y.coeff i j = (⟨1, 2, fun _ j => if j = 0 then 0 else 5⟩ : Mat ℝ).coeff i j) :=
  softmax_multi_column ⟨1, 2, fun _ j => if j = 0 then 0 else 5⟩ (by decide)

/-- Subtracting a constant from every exponent does not change the normalised
exponential. -/
theorem exp_shift_ratio (f : Nat → ℝ) (n : Nat) (a c : ℝ) :
    Real.exp (a - c) / ∑ k in Finset.range n, Real.exp (f k - c)
      = Real.exp a / ∑ k in Finset.range n, Real.exp (f k) := by
  have hc : Real.exp c ≠ 0 := ne_of_gt (Real.exp_pos c)
  have hsum : ∑ k in Finset.range n, Real.exp (f k - c)
      = (∑ k in Finset.range n, Real.exp (f k)) / Real.exp c := by
    rw [Finset.sum_div]
    exact Finset.sum_congr rfl (fun k _ => Real.exp_sub _ _)
  rw [hsum, Real.exp_sub]
  exact div_div_div_cancel_right₀ hc _ _

/-- The value `colMax` is an upper bound of column 0. -/
theorem le_colMax [LinearOrder α] (x : Mat α) (i : Nat) (hi : i < x.rows) :
    x.coeff i 0 ≤ x.colMax := by
  have key : ∀ n (init : α), (∀ i, i < n → x.coeff i 0 ≤
      (List.range n).foldl (fun m i => max m (x.coeff i 0)) init) ∧
      init ≤ (List.range n).foldl (fun m i => max m (x.coeff i 0)) init := by
    intro n
    induction n with
    | zero => intro init; exact ⟨fun i hi => absurd hi (Nat.not_lt_zero i), le_refl _⟩
    | succ n ih =>
      intro init
      obtain ⟨h1, h2⟩ := ih init
      rw [List.range_succ, List.foldl_append]
      simp only [List.foldl_cons, List.foldl_nil]
      refine ⟨fun i hi => ?_, le_trans h2 (le_max_left _ _)⟩
      by_cases hin : i = n
      · subst hin; exact le_max_right _ _
      · exact le_trans (h1 i (by omega)) (le_max_left _ _)
  exact (key x.rows (x.coeff 0 0)).1 i hi

/-- C17: for a single-column real input `x` (with any number of rows) and every real `c`,
`Softmax::forward` of `x` with `c` subtracted from every entry has the entries of
`Softmax::forward(x)`; and the stabilised form of the specification,
`exp(x[i] - max(x)) / Σ_k exp(x[k] - max(x))`, has these entries too. -/
theorem softmax_shift_invariant (x : Mat ℝ) (c : ℝ) (hc : x.cols = 1) :
    ∃ y y0 : Mat ℝ, Softmax.forward Real.exp x = .ok y ∧
      Softmax.forward Real.exp (x.shift c) = .ok y0 ∧
      y0.rows = y.rows ∧ y0.cols = y.cols ∧
      (∀ i, i < y.rows → y0.coeff i 0 = y.coeff i 0) ∧
      (stableSoftmaxSpec Real.exp x).rows = y.rows ∧
      (stableSoftmaxSpec Real.exp x).cols = y.cols ∧
      (∀ i, i < y.rows → (stableSoftmaxSpec Real.exp x).coeff i 0 = y.coeff i 0) ∧
      (∀ i, i < y.rows → x.coeff i 0 ≤ x.colMax) := by
  obtain ⟨y, hy, hrows, hcols, hval, -⟩ := softmax_forward_eq Real.exp x (by omega)
  obtain ⟨y0, hy0, hrows0, hcols0, hval0, -⟩ :=
    softmax_forward_eq Real.exp (x.shift c) (by show 0 < x.cols; omega)
  have hr0 : (x.shift c).rows = x.rows := rfl
  have hc0 : (x.shift c).cols = x.cols := rfl
  have hsc : (stableSoftmaxSpec Real.exp x).cols = 1 := rfl
  refine ⟨y, y0, hy, hy0, by omega, by omega, ?_, hrows.symm, by omega, ?_, ?_⟩
  · intro i hi
    rw [hrows] at hi
    rw [hval0 i hi, hval i hi]
    exact exp_shift_ratio (fun k => x.coeff k 0) x.rows (x.coeff i 0) c
  · intro i hi
    rw [hrows] at hi
    rw [hval i hi]
    exact exp_shift_ratio (fun k => x.coeff k 0) x.rows (x.coeff i 0) x.colMax
  · intro i hi
    rw [hrows] at hi
    exact le_colMax x i hi

/-- C17 at the column `[1, 2]` and the constant `2`. -/
theorem softmax_shift_invariant_witness :
    ∃ y y0 : Mat ℝ, Softmax.forward Real.exp (col2 1 2) = .ok y ∧
      Softmax.forward Real.exp ((col2 1 2 : Mat ℝ).shift 2) = .ok y0 ∧
      y0.rows = y.rows ∧ y0.cols = y.cols ∧
      (∀ i, i < y.rows → y0.coeff i 0 = y.coeff i 0) ∧
      (stableSoftmaxSpec Real.exp (col2 1 2)).rows = y.rows ∧
      (stableSoftmaxSpec Real.exp (col2 1 2)).cols = y.cols ∧
      (∀ i, i < y.rows → (stableSoftmaxSpec Real.exp (col2 1 2)).coeff i 0 = y.coeff i 0) ∧
      (∀ i, i < y.rows → (col2 1 2 : Mat ℝ).coeff i 0 ≤ (col2 1 2 : Mat ℝ).colMax) :=
  softmax_shift_invariant (col2 1 2) 2 rfl

/-! ## The network of hidden width 128 -/

/-- Over the reals, with a first layer of 128 rows and matching shapes the four layer calls
succeed and return the softmax of `A2 * ReLU(A1 * x + b1) + b2`. -/
theorem forwardPass_values (R_y0 : Nat → ℝ) (l1 l2 : Linear ℝ) (x : Mat ℝ) (m n : Nat)
    (hm : 1 ≤ m)
    (hA1 : l1.A.rows = 128 ∧ l1.A.cols = n) (hb1 : l1.b.rows = 128 ∧ l1.b.cols = 1)
    (hA2 : l2.A.rows = m ∧ l2.A.cols = 128) (hb2 : l2.b.rows = m ∧ l2.b.cols = 1)
    (hx : x.rows = n ∧ x.cols = 1) :
    ∃ P : Mat ℝ, forwardPass Real.exp R_y0 l1 l2 x = .ok P ∧ P.rows = m ∧ P.cols = 1 ∧
      (∀ i, i < m → P.coeff i 0 =
        Real.exp (logit l1 l2 x i) / ∑ k in Finset.range m, Real.exp (logit l1 l2 x k)) ∧
      ∑ i in Finset.range m, P.coeff i 0 = 1 := by
  obtain ⟨ha1, ha2⟩ := hA1
  obtain ⟨hb1r, hb1c⟩ := hb1
  obtain ⟨ha3, ha4⟩ := hA2
  obtain ⟨hb2r, hb2c⟩ := hb2
  obtain ⟨hxr, hxc⟩ := hx
  have e1 := linear_forward_eq l1 x (by omega) (by omega) (by omega)
  obtain ⟨R, hR, hrows, hcols, hlow, -⟩ :=
    relu_forward_small R_y0
      (⟨l1.A.rows, x.cols, fun i j =>
        (∑ k in Finset.range l1.A.cols, l1.A.coeff i k * x.coeff k j) + l1.b.coeff i j⟩ : Mat ℝ)
      (by show 0 < x.cols; omega) (by show l1.A.rows ≤ 128; omega)
  have e2 := linear_forward_eq l2 R (by omega) (by omega) (by omega)
  obtain ⟨P, hP, hProws, hPcols, hPval, -⟩ :=
    softmax_forward_eq Real.exp
      (⟨l2.A.rows, R.cols, fun i j =>
        (∑ k in Finset.range l2.A.cols, l2.A.coeff i k * R.coeff k j) + l2.b.coeff i j⟩ : Mat ℝ)
      (by show 0 < R.cols; omega)
  have hz : ∀ i, (∑ k in Finset.range l2.A.cols, l2.A.coeff i k * R.coeff k 0)
      + l2.b.coeff i 0 = logit l1 l2 x i := by
    intro i
    unfold logit
    congr 1
    apply Finset.sum_congr rfl
    intro k hk
    have hk128 : k < 128 := by
      have := Finset.mem_range.mp hk
      omega
    rw [hlow k (by show k < l1.A.rows; omega)]
    rfl
  have hrun : forwardPass Real.exp R_y0 l1 l2 x = .ok P := by
    unfold forwardPass
    rw [e1]
    show (ReLU.forward R_y0 _ >>= fun R_ans => _) = _
    rw [hR]
    show (l2.forward R >>= fun l_ans => _) = _
    rw [e2]
    show (Softmax.forward Real.exp _ >>= fun probabilities => _) = _
    rw [hP]
    rfl
  have hPm : P.rows = m := by rw [hProws]; exact ha3
  have hval : ∀ i, i < m → P.coeff i 0 =
      Real.exp (logit l1 l2 x i) / ∑ k in Finset.range m, Real.exp (logit l1 l2 x k) := by
    intro i hi
    have := hPval i (by show i < l2.A.rows; omega)
    simp only [hz, ha3] at this
    exact this
  refine ⟨P, hrun, hPm, by rw [hPcols]; exact hcols, hval, ?_⟩
  rw [Finset.sum_congr rfl (fun i hi => hval i (Finset.mem_range.mp hi)), ← Finset.sum_div]
  have hpos : 0 < ∑ k in Finset.range m, Real.exp (logit l1 l2 x k) :=
    Finset.sum_pos (fun _ _ => Real.exp_pos _) ⟨0, Finset.mem_range.mpr (by omega)⟩
  exact div_self (ne_of_gt hpos)

/-- The value of `A2 * ReLU(A1 * x + b1) + b2` for `onesLayer1`, `sumLayer2` and the input
`[5]`: the 128 hidden units are `6`, so the two entries are `768` and `0`. -/
theorem logits_768 (R_y0 : Nat → ℝ) :
    ∃ ans R L : Mat ℝ, (onesLayer1 : Linear ℝ).forward ⟨1, 1, fun _ _ => 5⟩ = .ok ans ∧
      ReLU.forward R_y0 ans = .ok R ∧ (sumLayer2 : Linear ℝ).forward R = .ok L ∧
      L.rows = 2 ∧ L.cols = 1 ∧ L.coeff 0 0 = 768 ∧ L.coeff 1 0 = 0 := by
  have e1 := linear_forward_eq (onesLayer1 : Linear ℝ) ⟨1, 1, fun _ _ => 5⟩ rfl rfl rfl
  obtain ⟨R, hR, hrows, hcols, hlow, -⟩ :=
    relu_forward_small R_y0
      (⟨(onesLayer1 : Linear ℝ).A.rows, 1, fun i j =>
        (∑ k in Finset.range (onesLayer1 : Linear ℝ).A.cols,
          (onesLayer1 : Linear ℝ).A.coeff i k * (⟨1, 1, fun _ _ => 5⟩ : Mat ℝ).coeff k j)
            + (onesLayer1 : Linear ℝ).b.coeff i j⟩ : Mat ℝ)
      Nat.zero_lt_one (show 128 ≤ 128 by decide)
  have e2 := linear_forward_eq (sumLayer2 : Linear ℝ) R
    (by show 128 = R.rows; omega) rfl (by show R.cols = 1; omega)
  have hR6 : ∀ k ∈ Finset.range 128, R.coeff k 0 = 6 := by
    intro k hk
    rw [hlow k (Finset.mem_range.mp hk)]
    simp [onesLayer1]
    norm_num
  refine ⟨_, R, _, e1, hR, e2, rfl, hcols, ?_, ?_⟩
  · show (∑ k in Finset.range 128, (sumLayer2 : Linear ℝ).A.coeff 0 k * R.coeff k 0)
      + (sumLayer2 : Linear ℝ).b.coeff 0 0 = 768
    rw [Finset.sum_congr rfl (fun k hk => by rw [hR6 k hk])]
    simp [sumLayer2]
    norm_num
  · show (∑ k in Finset.range 128, (sumLayer2 : Linear ℝ).A.coeff 1 k * R.coeff k 0)
      + (sumLayer2 : Linear ℝ).b.coeff 1 0 = 0
    simp [sumLayer2]

/-- On a stream that is not good `csv2mat` ends with its exception. -/
theorem csv2mat_missing [Zero α] (g : Indet α) (ifs : IStream α) (h : ifs.good = false) :
    (csv2mat g ifs).1 = .error .runtimeError := by
  simp [csv2mat, h]

/-- C11, as stated, fails: in a directory without any file the run ends with the
exception of `csv2mat` for `A1.csv`, but `output.csv` has been created by then, since
`std::ofstream ofs("output.csv")` is the first statement of `main` to take effect. -/
theorem main_missing_weights_counterexample :
    ((emptyWorld : World ℝ).files "A1.csv").good = false ∧
    (main Real.exp (emptyWorld : World ℝ) ["network"]).exit = .error .runtimeError ∧
    (main Real.exp (emptyWorld : World ℝ) ["network"]).created = true := by
  have h := csv2mat_missing ((emptyWorld : World ℝ).indet 0)
    ((emptyWorld : World ℝ).files "A1.csv") rfl
  refine ⟨rfl, ?_, ?_⟩ <;>
    simp only [main, Linear.construct, h, bind, Except.bind]

/-- C11, amended: when one of the four weight files is missing and the weight files
loaded before it load, `main` ends with the exception of `csv2mat` (the IOError-kind
failure) before any line is written to the output file; the output file itself has been
created by then. -/
theorem main_missing_weight_file [Semiring α] [LinearOrder α] [Div α] (exp : α → α)
    (w : World α) (argv : List String) (j : Nat) (hj : j < 4)
    (hmiss : (w.files (weightFile j)).good = false)
    (hprev : ∀ i, i < j → ∃ M, (csv2mat (w.indet i) (w.files (weightFile i))).1 = .ok M) :
    (main exp w argv).exit = .error .runtimeError ∧ (main exp w argv).lines = [] ∧
      (main exp w argv).created = true := by
  have hbad := csv2mat_missing (w.indet j) (w.files (weightFile j)) hmiss
  have hj4 : j = 0 ∨ j = 1 ∨ j = 2 ∨ j = 3 := by omega
  rcases hj4 with rfl | rfl | rfl | rfl
  · simp only [weightFile] at hbad
    refine ⟨?_, ?_, ?_⟩ <;>
      simp only [main, Linear.construct, hbad, bind, Except.bind]
  · obtain ⟨M0, h0⟩ := hprev 0 (by omega)
    simp only [weightFile] at hbad h0
    refine ⟨?_, ?_, ?_⟩ <;>
      simp only [main, Linear.construct, hbad, h0, bind, Except.bind]
  · obtain ⟨M0, h0⟩ := hprev 0 (by omega)
    obtain ⟨M1, h1⟩ := hprev 1 (by omega)
    simp only [weightFile] at hbad h0 h1
    refine ⟨?_, ?_, ?_⟩ <;>
      simp only [main, Linear.construct, hbad, h0, h1, bind, Except.bind, pure, Except.pure]
  · obtain ⟨M0, h0⟩ := hprev 0 (by omega)
    obtain ⟨M1, h1⟩ := hprev 1 (by omega)
    obtain ⟨M2, h2⟩ := hprev 2 (by omega)
    simp only [weightFile] at hbad h0 h1 h2
    refine ⟨?_, ?_, ?_⟩ <;>
      simp only [main, Linear.construct, hbad, h0, h1, h2, bind, Except.bind, pure,
        Except.pure]

/-- C11, amended, in the directory without any file, where `A1.csv` is the missing file. -/
theorem main_missing_weight_file_witness :
    (main Real.exp (emptyWorld : World ℝ) ["network"]).exit = .error .runtimeError ∧
    (main Real.exp (emptyWorld : World ℝ) ["network"]).lines = [] ∧
    (main Real.exp (emptyWorld : World ℝ) ["network"]).created = true :=
  main_missing_weight_file Real.exp emptyWorld ["network"] 0 (by decide) rfl
    (fun i hi => absurd hi (Nat.not_lt_zero i))

/-- The loop over the data files passes over a first part of the list in which every
sample loads and passes the four layers, appending one line per file. -/
theorem sampleLoop_append [Semiring α] [LinearOrder α] [Div α] (exp : α → α) (w : World α)
    (l1 l2 : Linear α) (p : Nat → Mat α) (rest : List String) :
    ∀ (pre : List String) (k : Nat) (out : List (List α)),
      (∀ i name, pre[i]? = some name →
        ∃ X s, csv2mat (w.indet (4 + (k + i))) (w.files name) = (.ok X, s) ∧
          forwardPass exp (w.R_y0 (k + i)) l1 l2 X = .ok (p (k + i))) →
      sampleLoop exp w l1 l2 k (pre ++ rest) out =
        sampleLoop exp w l1 l2 (k + pre.length) rest
          (out ++ (List.range pre.length).map (fun i => (p (k + i)).entries)) := by
  intro pre
  induction pre with
  | nil => intro k out _; simp
  | cons f pre ih =>
    intro k out h
    obtain ⟨X, s, hX, hP⟩ := h 0 f (by simp)
    have hrest := ih (k + 1) (out ++ [(p k).entries]) (fun i name hi => by
      have := h (i + 1) name (by simpa using hi)
      have e : k + (i + 1) = k + 1 + i := by omega
      rw [e] at this
      exact this)
    simp only [Nat.add_zero] at hX hP
    rw [List.cons_append]
    simp only [sampleLoop, hX, hP, bind, Except.bind]
    rw [hrest]
    simp [List.range_succ_eq_map, List.map_map, Function.comp_def, Nat.add_assoc,
      Nat.add_comm 1]

/-- C18, as stated, fails: in `exampleWorld` with the files `bad.csv`, `missing.csv` the
first file loads successfully and the second cannot be read, yet the output does not
consist of the row of the first sample: the first sample fails Eigen's size check in
`A1 * X` and the run ends there without any line. -/
theorem main_unreadable_file_counterexample :
    dataFilenames ["network", "bad.csv", "missing.csv"] = ["bad.csv", "missing.csv"] ∧
    (∃ X s, csv2mat ((exampleWorld : World ℝ).indet 4)
      ((exampleWorld : World ℝ).files "bad.csv") = (.ok X, s)) ∧
    ((exampleWorld : World ℝ).files "missing.csv").good = false ∧
    (main Real.exp (exampleWorld : World ℝ) ["network", "bad.csv", "missing.csv"]).lines
      = [] := by
  obtain ⟨l1, l2, h1, h2, -, hc, -⟩ := exampleWorld_weights (α := ℝ)
  obtain ⟨X, s, hX, hr, -⟩ := fileOf_loads ((exampleWorld : World ℝ).indet 4) 2 1
    [5, 6] (by decide) (by decide) (by simp)
  have hX4 : csv2mat ((exampleWorld : World ℝ).indet (4 + 0))
      ((exampleWorld : World ℝ).files "bad.csv") = (.ok X, s) := hX
  have hfail := forwardPass_shape_error Real.exp ((exampleWorld : World ℝ).R_y0 0) l1 l2 X
    (by omega)
  refine ⟨rfl, ⟨X, s, hX⟩, rfl, ?_⟩
  simp only [main, h1, h2, dataFilenames, sampleLoop, hX4, hfail, bind, Except.bind]

/-- C18, amended: when the weights load, the input files before the `k`-th all load and
pass the four layers, and the `k`-th input file cannot be read, `main` ends with the
exception of `csv2mat` having written exactly the lines of the samples before the `k`-th,
in order: nothing is written for the `k`-th sample and no later file is processed. -/
theorem main_unreadable_file [Semiring α] [LinearOrder α] [Div α] (exp : α → α)
    (w : World α) (argv : List String) (l1 l2 : Linear α) (p : Nat → Mat α)
    (pre post : List String) (f : String)
    (hnames : dataFilenames argv = pre ++ f :: post)
    (h1 : Linear.construct (w.indet 0) (w.indet 1) w.files "A1.csv" "b1.csv" = .ok l1)
    (h2 : Linear.construct (w.indet 2) (w.indet 3) w.files "A2.csv" "b2.csv" = .ok l2)
    (hpre : ∀ k name, pre[k]? = some name →
      ∃ X s, csv2mat (w.indet (4 + k)) (w.files name) = (.ok X, s) ∧
        forwardPass exp (w.R_y0 k) l1 l2 X = .ok (p k))
    (hbad : (w.files f).good = false) :
    (main exp w argv).exit = .error .runtimeError ∧
    (main exp w argv).lines = (List.range pre.length).map (fun k => (p k).entries) := by
  have hloop := sampleLoop_append exp w l1 l2 p (f :: post) pre 0 [] (fun i name hi => by
    simpa using hpre i name hi)
  have hf := csv2mat_missing (w.indet (4 + (0 + pre.length))) (w.files f) hbad
  have hmain : main exp w argv = ⟨true, [] ++ (List.range pre.length).map
      (fun i => (p (0 + i)).entries), .error .runtimeError⟩ := by
    simp only [main, h1, h2, hnames, hloop, sampleLoop, hf, bind, Except.bind]
  rw [hmain]
  simp

/-- C18, amended, in `exampleWorld` with the files `good.csv`, `missing.csv`, `good.csv`. -/
theorem main_unreadable_file_witness :
    (main Real.exp (exampleWorld : World ℝ)
      ["network", "good.csv", "missing.csv", "good.csv"]).exit = .error .runtimeError ∧
    (main Real.exp (exampleWorld : World ℝ)
      ["network", "good.csv", "missing.csv", "good.csv"]).lines.length = 1 := by
  obtain ⟨l1, l2, h1, h2, a1, a2, a3, a4, a5, a6, a7, a8⟩ := exampleWorld_weights (α := ℝ)
  obtain ⟨X, s, hX, hr, hc⟩ := fileOf_loads ((exampleWorld : World ℝ).indet 4) 1 1
    [5] (by decide) (by decide) (by simp)
  obtain ⟨P, hP, -, -⟩ :=
    forwardPass_ok Real.exp ((exampleWorld : World ℝ).R_y0 0) l1 l2 X
      (by omega) (by omega) (by omega) (by omega) (by omega) a6 (by omega) a8
  have h := main_unreadable_file Real.exp (exampleWorld : World ℝ)
    ["network", "good.csv", "missing.csv", "good.csv"] l1 l2 (fun _ => P)
    ["good.csv"] ["good.csv"] "missing.csv" rfl h1 h2 (by
      intro k name hk
      cases k with
      | zero =>
        simp only [List.getElem?_cons_zero, Option.some.injEq] at hk
        subst hk
        exact ⟨X, s, hX, hP⟩
      | succ k => simp at hk) rfl
  refine ⟨h.1, ?_⟩
  rw [h.2]
  rfl

/-! ## The order of the output rows -/

/-- Entry `k < n` of the numbers `a, …, a` (`n` times) followed by any others. -/
theorem replicate_lookup (n a : Nat) (rest : List Nat) (k : Nat) (hk : k < n) :
    ((List.replicate n a ++ rest).map (Nat.cast : Nat → ℝ))[k]? = some (a : ℝ) := by
  rw [List.getElem?_map, List.getElem?_append_left (by simpa using hk),
    List.getElem?_replicate, if_pos hk]
  rfl

/-- Entry `k < n` of the numbers `a, …, a` (`n` times). -/
theorem replicate_lookup_plain (n a : Nat) (k : Nat) (hk : k < n) :
    ((List.replicate n a).map (Nat.cast : Nat → ℝ))[k]? = some (a : ℝ) := by
  rw [List.getElem?_map, List.getElem?_replicate, if_pos hk]
  rfl

/-- Entry `n + k` of `n` numbers `a` followed by `m > k` numbers `b`. -/
theorem replicate_lookup_right (n m a b : Nat) (k : Nat) (hk : k < m) :
    ((List.replicate n a ++ List.replicate m b).map (Nat.cast : Nat → ℝ))[n + k]?
      = some (b : ℝ) := by
  rw [List.getElem?_map, List.getElem?_append_right (by simp),
    List.length_replicate, Nat.add_sub_cancel_left, List.getElem?_replicate, if_pos hk]
  rfl

/-- The weights of `twoClassWorld` load, with the shapes and entries written in the
files. -/
theorem twoClassWorld_weights :
    ∃ l1 l2 : Linear ℝ,
      Linear.construct ((twoClassWorld : World ℝ).indet 0) ((twoClassWorld : World ℝ).indet 1)
        (twoClassWorld : World ℝ).files "A1.csv" "b1.csv" = .ok l1 ∧
      Linear.construct ((twoClassWorld : World ℝ).indet 2) ((twoClassWorld : World ℝ).indet 3)
        (twoClassWorld : World ℝ).files "A2.csv" "b2.csv" = .ok l2 ∧
      (l1.A.rows = 128 ∧ l1.A.cols = 1) ∧ (l1.b.rows = 128 ∧ l1.b.cols = 1) ∧
      (l2.A.rows = 2 ∧ l2.A.cols = 128) ∧ (l2.b.rows = 2 ∧ l2.b.cols = 1) ∧
      (∀ k, k < 128 → l1.A.coeff k 0 = 1) ∧ (∀ k, k < 128 → l1.b.coeff k 0 = 0) ∧
      (∀ k, k < 128 → l2.A.coeff 0 k = 1) ∧ (∀ k, k < 128 → l2.A.coeff 1 k = 0) ∧
      l2.b.coeff 0 0 = 0 ∧ l2.b.coeff 1 0 = 0 := by
  obtain ⟨A1, s1, e1, r1, c1, v1⟩ := fileOf_values ((twoClassWorld : World ℝ).indet 0) 128 1
    (List.replicate 128 1) (by decide) (by decide) (by simp)
  obtain ⟨b1, s2, e2, r2, c2, v2⟩ := fileOf_values ((twoClassWorld : World ℝ).indet 1) 128 1
    (List.replicate 128 0) (by decide) (by decide) (by simp)
  obtain ⟨A2, s3, e3, r3, c3, v3⟩ := fileOf_values ((twoClassWorld : World ℝ).indet 2) 2 128
    (List.replicate 128 1 ++ List.replicate 128 0) (by decide) (by decide)
    (by rw [List.length_append, List.length_replicate, List.length_replicate])
  obtain ⟨b2, s4, e4, r4, c4, v4⟩ := fileOf_values ((twoClassWorld : World ℝ).indet 3) 2 1
    [0, 0] (by decide) (by decide) (by simp)
  refine ⟨⟨A1, b1⟩, ⟨A2, b2⟩,
    construct_ok _ _ _ "A1.csv" "b1.csv" A1 b1 s1 s2 e1 e2,
    construct_ok _ _ _ "A2.csv" "b2.csv" A2 b2 s3 s4 e3 e4,
    ⟨r1, c1⟩, ⟨r2, c2⟩, ⟨r3, c3⟩, ⟨r4, c4⟩, ?_, ?_, ?_, ?_, ?_, ?_⟩
  · intro k hk
    have := v1 k 0 hk (by decide)
    rw [Nat.mul_one, Nat.add_zero, replicate_lookup_plain 128 1 k hk] at this
    simpa using this.symm
  · intro k hk
    have := v2 k 0 hk (by decide)
    rw [Nat.mul_one, Nat.add_zero, replicate_lookup_plain 128 0 k hk] at this
    simpa using this.symm
  · intro k hk
    have := v3 0 k (by decide) hk
    rw [Nat.zero_mul, Nat.zero_add, replicate_lookup 128 1 _ k hk] at this
    simpa using this.symm
  · intro k hk
    have := v3 1 k (by decide) hk
    rw [Nat.one_mul, replicate_lookup_right 128 128 1 0 k hk] at this
    simpa using this.symm
  · have := v4 0 0 (by decide) (by decide)
    simpa using this.symm
  · have := v4 1 0 (by decide) (by decide)
    simpa using this.symm

/-- The row computed for the one-entry sample `[v]` by a network with the weights of
`twoClassWorld`: the logits are `128 * v` and `0`. -/
theorem twoClass_row (R_y0 : Nat → ℝ) (l1 l2 : Linear ℝ) (X : Mat ℝ) (v : Nat)
    (hA1 : l1.A.rows = 128 ∧ l1.A.cols = 1) (hb1 : l1.b.rows = 128 ∧ l1.b.cols = 1)
    (hA2 : l2.A.rows = 2 ∧ l2.A.cols = 128) (hb2 : l2.b.rows = 2 ∧ l2.b.cols = 1)
    (w1 : ∀ k, k < 128 → l1.A.coeff k 0 = 1) (w2 : ∀ k, k < 128 → l1.b.coeff k 0 = 0)
    (w3 : ∀ k, k < 128 → l2.A.coeff 0 k = 1) (w4 : ∀ k, k < 128 → l2.A.coeff 1 k = 0)
    (w5 : l2.b.coeff 0 0 = 0) (w6 : l2.b.coeff 1 0 = 0)
    (hX : X.rows = 1 ∧ X.cols = 1) (hXv : X.coeff 0 0 = v) :
    ∃ P : Mat ℝ, forwardPass Real.exp R_y0 l1 l2 X = .ok P ∧
      P.entries = [Real.exp (128 * v) / (Real.exp (128 * v) + 1),
        1 / (Real.exp (128 * v) + 1)] := by
  obtain ⟨P, hP, hrows, hcols, hval, -⟩ :=
    forwardPass_values R_y0 l1 l2 X 2 1 (by decide) hA1 hb1 hA2 hb2 hX
  have hh : ∀ k, k ∈ Finset.range 128 → hiddenUnit l1 X k = v := by
    intro k hk
    have hk128 := Finset.mem_range.mp hk
    unfold hiddenUnit
    rw [hA1.2]
    simp [w1 k hk128, w2 k hk128, hXv]
  have hz0 : logit l1 l2 X 0 = 128 * v := by
    unfold logit
    rw [hA2.2, w5, Finset.sum_congr rfl (fun k hk => by
      rw [hh k hk, w3 k (Finset.mem_range.mp hk)])]
    simp
  have hz1 : logit l1 l2 X 1 = 0 := by
    unfold logit
    rw [hA2.2, w6, Finset.sum_congr rfl (fun k hk => by
      rw [w4 k (Finset.mem_range.mp hk)])]
    simp
  refine ⟨P, hP, ?_⟩
  have he : P.entries = [P.coeff 0 0, P.coeff 1 0] := by
    simp [Mat.entries, hrows, hcols, List.range_succ]
  rw [he, hval 0 (by decide), hval 1 (by decide)]
  simp [Finset.sum_range_succ, hz0, hz1]

end Network
